import Mathlib

/-!
Verification of the hyperlink correlator of `src/lib/compareDocxHyperlinks.js`.

The correlator receives two lists of extracted link records and classifies
every record as matched (unrecorded), `changedUrl`, `changedAnchorText`,
`added` or `removed`.  The JavaScript tracks consumption through two `Set`
objects (`accountedA`, `accountedB`) keyed by object identity; here a record
carries an `id` field standing for its object identity, and the accounted
sets are lists of records.  Every `accountedX.add` in the source happens at
the moment a pair (true match, changedUrl or changedAnchorText) is formed,
so the accounted sets are embedded as the lists of pair components; the
matched (true-match) pairs, which the source never returns, are kept as a
ghost output of the `Full` variants below.
-/

/-- A hyperlink record as produced by `extractHyperlinksFromDocument`:
`{ part, relId, url, anchorText }`, with `url` possibly `null`.  The `id`
field models JavaScript object identity (two records with equal visible
fields are still distinct objects). -/
structure Link where
  id : Nat
  part : String
  relId : String
  url : Option String
  anchorText : String
  deriving DecidableEq, Repr

/-- A before/after pair as pushed onto `changedUrl` / `changedAnchorText`. -/
structure LinkPair where
  before : Link
  after : Link
  deriving DecidableEq, Repr

/-- Swap the roles of a pair (used to state symmetry). -/
def LinkPair.swap (p : LinkPair) : LinkPair := ⟨p.after, p.before⟩

/-- Function `normalizeUrl` from the source: `url == null ? '' : String(url)`. -/
def normalizeUrl (url : Option String) : String := url.getD ""

/-- The character class of the JavaScript regular expression `\s`: tab
through carriage return, space, NBSP, the Unicode space separators, the
line and paragraph separators, and the BOM. -/
def isJsWhitespace (c : Char) : Bool :=
  (9 ≤ c.toNat && c.toNat ≤ 13) || c.toNat = 32 ||
  c.toNat = 0xa0 || c.toNat = 0x1680 ||
  (0x2000 ≤ c.toNat && c.toNat ≤ 0x200a) ||
  c.toNat = 0x2028 || c.toNat = 0x2029 || c.toNat = 0x202f ||
  c.toNat = 0x205f || c.toNat = 0x3000 || c.toNat = 0xfeff

/-- Step `.replace(/\s+/g, ' ')`: every maximal whitespace run becomes one space.
The flag records whether the previous character was part of a whitespace
run whose space has already been emitted. -/
def collapseWsAux : Bool → List Char → List Char
  | _, [] => []
  | prevWs, c :: rest =>
    if isJsWhitespace c then
      if prevWs then collapseWsAux true rest
      else ' ' :: collapseWsAux true rest
    else
      c :: collapseWsAux false rest

/-- Step `.trim()`: strip leading and trailing whitespace. -/
def jsTrim (l : List Char) : List Char :=
  ((l.dropWhile isJsWhitespace).reverse.dropWhile isJsWhitespace).reverse

/-- Function `normalizeText` from the source:
`(text == null ? '' : String(text)).replace(/\s+/g, ' ').trim()`. -/
def normalizeText (s : String) : String :=
  ⟨jsTrim (collapseWsAux false s.data)⟩

/-- Pass-1 grouping key: `` `${link.part}||${normalizeText(link.anchorText)}` ``. -/
def anchorKey (l : Link) : String := l.part ++ "||" ++ normalizeText l.anchorText

/-- Pass-2 grouping key: `` `${link.part}||${normalizeUrl(link.url)}` ``. -/
def urlKey (l : Link) : String := l.part ++ "||" ++ normalizeUrl l.url

/-- The bucket of `buildMap` for one key: the sublist of `links` with that
key, in original order. -/
def grp (f : Link → String) (k : String) (links : List Link) : List Link :=
  links.filter (fun l => decide (f l = k))

/-- First-occurrence deduplication with an accumulator of already seen keys;
models JavaScript `Map`/`Set` insertion-order iteration. -/
def dedupFirstAux (seen : List String) : List String → List String
  | [] => []
  | k :: rest =>
    if k ∈ seen then dedupFirstAux seen rest
    else k :: dedupFirstAux (k :: seen) rest

/-- The key set `new Set([...mapA.keys(), ...mapB.keys()])` iterated in insertion order:
the distinct keys of both lists, ordered by first occurrence in
`linksA` then `linksB`. -/
def allKeys (f : Link → String) (linksA linksB : List Link) : List String :=
  dedupFirstAux [] (linksA.map f ++ linksB.map f)

/-- The still-unused B-side records, in original order
(`!usedB[indexB]` entries of `arrB`). -/
def unusedOf (bs : List (Link × Bool)) : List Link :=
  (bs.filter (fun x => !x.2)).map Prod.fst

/-- Pairs `arrB` with its fresh all-false `usedB` array. -/
def initUsed (bs : List Link) : List (Link × Bool) :=
  bs.map (fun b => (b, false))

/-- Models `arrB.findIndex((linkB, indexB) => !usedB[indexB] && p linkB)` followed
by `usedB[matchIndex] = true`: returns the first unused record satisfying
`p` together with the updated flag array, or `none`. -/
def markFirst (p : Link → Bool) : List (Link × Bool) → Option (Link × List (Link × Bool))
  | [] => none
  | (b, used) :: rest =>
    if !used && p b then some (b, (b, true) :: rest)
    else
      match markFirst p rest with
      | some (x, rest') => some (x, (b, used) :: rest')
      | none => none

/-- One greedy scan of `arrA` (the `for (indexA ...)` loops of both compare
functions): each A-record in order claims the first unused B-record
satisfying `p`.  Returns the formed pairs, the A-records that found no
partner (in order), and the final flag array. -/
def matchLoop (p : Link → Link → Bool) :
    List Link → List (Link × Bool) → List LinkPair × List Link × List (Link × Bool)
  | [], bs => ([], [], bs)
  | a :: as, bs =>
    match markFirst (p a) bs with
    | some (b, bs') =>
      let r := matchLoop p as bs'
      (⟨a, b⟩ :: r.1, r.2.1, r.2.2)
    | none =>
      let r := matchLoop p as bs
      (r.1, a :: r.2.1, r.2.2)

/-- Predicate `normalizeUrl(linkA.url) === normalizeUrl(linkB.url)`. -/
def urlEq (a b : Link) : Bool := decide (normalizeUrl a.url = normalizeUrl b.url)

/-- Predicate `normalizeText(linkA.anchorText) === normalizeText(linkB.anchorText)`. -/
def textEq (a b : Link) : Bool :=
  decide (normalizeText a.anchorText = normalizeText b.anchorText)

/-- Positional pairing: the i-th record of `xs` with the i-th of `ys`,
for `min` of the two lengths many pairs. -/
def zipPairs (xs ys : List Link) : List LinkPair :=
  (xs.zip ys).map (fun ab => ⟨ab.1, ab.2⟩)

/-- Pass-1 body for one `(part, anchor)` group: first the URL-equality scan
(true matches), then the unconditional scan pairing leftovers as
`changedUrl` entries.  Returns `(matched, changedUrl)`. -/
def pass1Group (arrA arrB : List Link) : List LinkPair × List LinkPair :=
  let r1 := matchLoop urlEq arrA (initUsed arrB)
  let r2 := matchLoop (fun _ _ => true) r1.2.1 r1.2.2
  (r1.1, r2.1)

/-- Pass-2 body for one `(part, url)` group: first the anchor-equality scan
(true matches), then positional pairing of the remainders as
`changedAnchorText` entries.  Returns `(matched, changedAnchorText)`. -/
def pass2Group (arrA arrB : List Link) : List LinkPair × List LinkPair :=
  let r1 := matchLoop textEq arrA (initUsed arrB)
  (r1.1, zipPairs r1.2.1 (unusedOf r1.2.2))

/-- The shared shape of both compare functions: group both sides by `f`,
iterate the keys in insertion order, and concatenate each group's results. -/
def runPass (f : Link → String)
    (step : List Link → List Link → List LinkPair × List LinkPair)
    (linksA linksB : List Link) : List LinkPair × List LinkPair :=
  let keys := allKeys f linksA linksB
  ((keys.map (fun k => (step (grp f k linksA) (grp f k linksB)).1)).flatten,
   (keys.map (fun k => (step (grp f k linksA) (grp f k linksB)).2)).flatten)

/-- Function `compareByPartAndAnchor`, with the ghost list of true-match pairs first
and the `changedUrl` entries second. -/
def compareByPartAndAnchor (linksA linksB : List Link) : List LinkPair × List LinkPair :=
  runPass anchorKey pass1Group linksA linksB

/-- Function `compareByPartAndUrl`, with the ghost list of true-match pairs first and
the `changedAnchorText` entries second. -/
def compareByPartAndUrl (linksA linksB : List Link) : List LinkPair × List LinkPair :=
  runPass urlKey pass2Group linksA linksB

/-- The classification returned by `compareDocxHyperlinks`. -/
structure CompareResult where
  added : List Link
  removed : List Link
  changedUrl : List LinkPair
  changedAnchorText : List LinkPair
  deriving DecidableEq, Repr

/-- The correlation core of `compareDocxHyperlinks` (extraction from the two
files is out of scope): run pass 1 on the full lists, filter the unaccounted
records, run pass 2 on the residue, and classify the never-accounted records
as added/removed.  Also returns the ghost list of true-match pairs. -/
def compareDocxHyperlinksFull (linksA linksB : List Link) :
    CompareResult × List LinkPair :=
  let p1 := compareByPartAndAnchor linksA linksB
  let accA1 := p1.1.map LinkPair.before ++ p1.2.map LinkPair.before
  let accB1 := p1.1.map LinkPair.after ++ p1.2.map LinkPair.after
  let remA := linksA.filter (fun l => decide (l ∉ accA1))
  let remB := linksB.filter (fun l => decide (l ∉ accB1))
  let p2 := compareByPartAndUrl remA remB
  let accA := accA1 ++ p2.1.map LinkPair.before ++ p2.2.map LinkPair.before
  let accB := accB1 ++ p2.1.map LinkPair.after ++ p2.2.map LinkPair.after
  ({ added := linksB.filter (fun l => decide (l ∉ accB)),
     removed := linksA.filter (fun l => decide (l ∉ accA)),
     changedUrl := p1.2,
     changedAnchorText := p2.2 },
   p1.1 ++ p2.1)

/-- The visible result of `compareDocxHyperlinks`. -/
def compareDocxHyperlinks (linksA linksB : List Link) : CompareResult :=
  (compareDocxHyperlinksFull linksA linksB).1

/-- The ghost list of unrecorded true-match pairs formed by the two passes. -/
def matchedPairs (linksA linksB : List Link) : List LinkPair :=
  (compareDocxHyperlinksFull linksA linksB).2

/-! ### Lemmas about `unusedOf` and `markFirst` -/

@[simp]
theorem unusedOf_nil : unusedOf [] = [] := rfl

@[simp]
theorem unusedOf_cons_false (b : Link) (rest : List (Link × Bool)) :
    unusedOf ((b, false) :: rest) = b :: unusedOf rest := rfl

@[simp]
theorem unusedOf_cons_true (b : Link) (rest : List (Link × Bool)) :
    unusedOf ((b, true) :: rest) = unusedOf rest := rfl

@[simp]
theorem unusedOf_initUsed (bs : List Link) : unusedOf (initUsed bs) = bs := by
  induction bs with
  | nil => rfl
  | cons b rest ih => simpa [initUsed] using ih

theorem markFirst_cons (p : Link → Bool) (c : Link) (used : Bool)
    (rest : List (Link × Bool)) :
    markFirst p ((c, used) :: rest) =
      if !used && p c then some (c, (c, true) :: rest)
      else (markFirst p rest).map (fun x => (x.1, (c, used) :: x.2)) := by
  by_cases h : (!used && p c) = true
  · simp [markFirst, h]
  · simp only [Bool.not_eq_true] at h
    cases hr : markFirst p rest <;> simp [markFirst, h, hr]

theorem markFirst_none (p : Link → Bool) (bs : List (Link × Bool)) :
    markFirst p bs = none ↔ ∀ b ∈ unusedOf bs, p b = false := by
  induction bs with
  | nil => simp [markFirst]
  | cons hd rest ih =>
    obtain ⟨c, used⟩ := hd
    rw [markFirst_cons]
    cases used with
    | true => simpa using ih
    | false =>
      by_cases hc : p c = true
      · simp [hc]
      · simp only [Bool.not_eq_true] at hc
        simp [hc, ih]

theorem markFirst_some (p : Link → Bool) :
    ∀ bs b bs', markFirst p bs = some (b, bs') →
      p b = true ∧ ∃ pre post, unusedOf bs = pre ++ b :: post ∧
        (∀ x ∈ pre, p x = false) ∧ unusedOf bs' = pre ++ post := by
  intro bs
  induction bs with
  | nil => intro b bs' h; simp [markFirst] at h
  | cons hd rest ih =>
    obtain ⟨c, used⟩ := hd
    intro b bs' h
    rw [markFirst_cons] at h
    by_cases hcond : (!used && p c) = true
    · rw [if_pos hcond] at h
      obtain ⟨h1, h2⟩ := Bool.and_eq_true_iff.mp hcond
      have h1' : used = false := by simpa using h1
      subst h1'
      simp only [Option.some.injEq, Prod.mk.injEq] at h
      obtain ⟨hb, hbs'⟩ := h
      subst hb; subst hbs'
      exact ⟨h2, [], unusedOf rest, by simp, by simp, by simp⟩
    · rw [if_neg (by simpa using hcond)] at h
      cases hrest : markFirst p rest with
      | none => rw [hrest] at h; simp at h
      | some x =>
        obtain ⟨x1, x2⟩ := x
        rw [hrest] at h
        simp only [Option.map_some', Option.some.injEq, Prod.mk.injEq] at h
        obtain ⟨hb, hbs'⟩ := h
        subst hb; subst hbs'
        obtain ⟨hp, pre, post, hsplit, hpre, hrest'⟩ := ih x1 x2 hrest
        cases used with
        | true =>
          exact ⟨hp, pre, post, by simpa using hsplit, hpre, by simpa using hrest'⟩
        | false =>
          have hc : p c = false := by simpa using hcond
          refine ⟨hp, c :: pre, post, ?_, ?_, ?_⟩
          · simp [hsplit]
          · intro x hx
            rcases List.mem_cons.mp hx with hx | hx
            · subst hx; exact hc
            · exact hpre x hx
          · simp [hrest']

/-! ### Lemmas about `matchLoop` -/

theorem matchLoop_perm_left (p : Link → Link → Bool) :
    ∀ as bs, ((matchLoop p as bs).1.map LinkPair.before ++
      (matchLoop p as bs).2.1).Perm as := by
  intro as
  induction as with
  | nil => intro bs; simp [matchLoop]
  | cons a as ih =>
    intro bs
    cases h : markFirst (p a) bs with
    | some x =>
      obtain ⟨b, bs'⟩ := x
      simp only [matchLoop, h, List.map_cons, List.cons_append]
      exact (ih bs').cons a
    | none =>
      simp only [matchLoop, h]
      exact List.perm_middle.trans ((ih bs).cons a)

theorem matchLoop_perm_right (p : Link → Link → Bool) :
    ∀ as bs, ((matchLoop p as bs).1.map LinkPair.after ++
      unusedOf (matchLoop p as bs).2.2).Perm (unusedOf bs) := by
  intro as
  induction as with
  | nil => intro bs; simp [matchLoop]
  | cons a as ih =>
    intro bs
    cases h : markFirst (p a) bs with
    | some x =>
      obtain ⟨b, bs'⟩ := x
      obtain ⟨-, pre, post, hsplit, -, hrest⟩ := markFirst_some (p a) bs b bs' h
      simp only [matchLoop, h, List.map_cons, List.cons_append]
      rw [hsplit]
      have h1 : (List.map LinkPair.after (matchLoop p as bs').1 ++
          unusedOf (matchLoop p as bs').2.2).Perm (pre ++ post) := hrest ▸ ih bs'
      exact (h1.cons b).trans List.perm_middle.symm
    | none =>
      simp only [matchLoop, h]
      exact ih bs

theorem matchLoop_unused_sublist (p : Link → Link → Bool) :
    ∀ as bs, List.Sublist (unusedOf (matchLoop p as bs).2.2) (unusedOf bs) := by
  intro as
  induction as with
  | nil => intro bs; simp [matchLoop]
  | cons a as ih =>
    intro bs
    cases h : markFirst (p a) bs with
    | some x =>
      obtain ⟨b, bs'⟩ := x
      obtain ⟨-, pre, post, hsplit, -, hrest⟩ := markFirst_some (p a) bs b bs' h
      simp only [matchLoop, h]
      refine (ih bs').trans ?_
      rw [hsplit, hrest]
      exact (List.sublist_cons_self b post).append_left pre
    | none =>
      simp only [matchLoop, h]
      exact ih bs

theorem matchLoop_no_match (p : Link → Link → Bool) :
    ∀ as bs, ∀ a ∈ (matchLoop p as bs).2.1,
      ∀ b ∈ unusedOf (matchLoop p as bs).2.2, p a b = false := by
  intro as
  induction as with
  | nil => intro bs a ha; simp [matchLoop] at ha
  | cons a0 as ih =>
    intro bs a ha b hb
    cases h : markFirst (p a0) bs with
    | some x =>
      obtain ⟨c, bs'⟩ := x
      simp only [matchLoop, h] at ha hb
      exact ih bs' a ha b hb
    | none =>
      simp only [matchLoop, h] at ha hb
      rcases List.mem_cons.mp ha with rfl | ha
      · have hall := (markFirst_none (p a) bs).mp h
        exact hall b (List.Sublist.mem hb (matchLoop_unused_sublist p as bs))
      · exact ih bs a ha b hb

theorem matchLoop_dead (p : Link → Link → Bool) :
    ∀ as bs, (∀ a ∈ as, ∀ b ∈ unusedOf bs, p a b = false) →
      matchLoop p as bs = ([], as, bs) := by
  intro as
  induction as with
  | nil => intro bs _; simp [matchLoop]
  | cons a as ih =>
    intro bs hdead
    have hnone : markFirst (p a) bs = none :=
      (markFirst_none (p a) bs).mpr (hdead a (by simp))
    have hrec := ih bs (fun x hx => hdead x (by simp [hx]))
    simp [matchLoop, hnone, hrec]

@[simp]
theorem zipPairs_nil_left (ys : List Link) : zipPairs [] ys = [] := rfl

@[simp]
theorem zipPairs_nil_right (xs : List Link) : zipPairs xs [] = [] := by
  simp [zipPairs]

@[simp]
theorem zipPairs_cons_cons (x y : Link) (xs ys : List Link) :
    zipPairs (x :: xs) (y :: ys) = ⟨x, y⟩ :: zipPairs xs ys := rfl

theorem matchLoop_true_eq :
    ∀ as bs, (matchLoop (fun _ _ => true) as bs).1 = zipPairs as (unusedOf bs) ∧
      (matchLoop (fun _ _ => true) as bs).2.1 = as.drop (unusedOf bs).length ∧
      unusedOf (matchLoop (fun _ _ => true) as bs).2.2 =
        (unusedOf bs).drop as.length := by
  intro as
  induction as with
  | nil => intro bs; simp [matchLoop]
  | cons a as ih =>
    intro bs
    cases h : markFirst ((fun _ _ => true) a) bs with
    | some x =>
      obtain ⟨b, bs'⟩ := x
      obtain ⟨-, pre, post, hsplit, hpre, hrest⟩ :=
        markFirst_some ((fun _ _ => true) a) bs b bs' h
      have hprenil : pre = [] := by
        cases pre with
        | nil => rfl
        | cons q qs => simpa using hpre q (by simp)
      subst hprenil
      simp only [List.nil_append] at hsplit hrest
      obtain ⟨ih1, ih2, ih3⟩ := ih bs'
      refine ⟨?_, ?_, ?_⟩
      · simp only [matchLoop, h, ih1, hrest, hsplit, zipPairs_cons_cons]
      · simp only [matchLoop, h, ih2, hrest, hsplit, List.length_cons, List.drop_succ_cons]
      · simp only [matchLoop, h, ih3, hrest, hsplit, List.length_cons, List.drop_succ_cons]
    | none =>
      have hempty : unusedOf bs = [] := by
        have hall := (markFirst_none ((fun _ _ => true) a) bs).mp h
        cases he : unusedOf bs with
        | nil => rfl
        | cons q qs => exact absurd (hall q (by simp [he])) (by simp)
      obtain ⟨ih1, ih2, ih3⟩ := ih bs
      refine ⟨?_, ?_, ?_⟩
      · simp only [matchLoop, h, ih1, hempty, zipPairs_nil_right]
      · simp [matchLoop, h, ih2, hempty]
      · simp [matchLoop, h, ih3, hempty]

/-! ### Classwise analysis of the greedy scan

Both real scan predicates compare a projection of the two records
(`normalizeUrl` of the url, or `normalizeText` of the anchor); for such
predicates the greedy first-fit scan decomposes class by class. -/

/-- Equality of a string projection, the shape of both scan predicates. -/
def projEq (f : Link → String) (a b : Link) : Bool := decide (f a = f b)

theorem urlEq_eq_projEq : urlEq = projEq (fun l => normalizeUrl l.url) := rfl

theorem textEq_eq_projEq : textEq = projEq (fun l => normalizeText l.anchorText) := rfl

/-- Walk `l` dropping, for every class `v` of the projection `f`, the first
`budget v` members of that class and keeping the rest in order. -/
def dropClasswise (f : Link → String) (budget : String → Nat) : List Link → List Link
  | [] => []
  | a :: as =>
    if budget (f a) = 0 then a :: dropClasswise f budget as
    else dropClasswise f (Function.update budget (f a) (budget (f a) - 1)) as

theorem dropClasswise_congr (f : Link → String) :
    ∀ (l : List Link) (b1 b2 : String → Nat), (∀ x ∈ l, b1 (f x) = b2 (f x)) →
      dropClasswise f b1 l = dropClasswise f b2 l := by
  intro l
  induction l with
  | nil => intro b1 b2 _; rfl
  | cons a as ih =>
    intro b1 b2 hagree
    have ha : b1 (f a) = b2 (f a) := hagree a (by simp)
    by_cases h0 : b1 (f a) = 0
    · rw [dropClasswise, dropClasswise, if_pos h0, if_pos (ha ▸ h0)]
      exact congrArg _ (ih b1 b2 (fun x hx => hagree x (by simp [hx])))
    · rw [dropClasswise, dropClasswise, if_neg h0, if_neg (ha ▸ h0)]
      refine ih _ _ ?_
      intro x hx
      by_cases hfx : f x = f a
      · rw [hfx, Function.update_same, Function.update_same, ha]
      · rw [Function.update_noteq hfx, Function.update_noteq hfx]
        exact hagree x (by simp [hx])

theorem dropClasswise_zero (f : Link → String) :
    ∀ (l : List Link) (b : String → Nat), (∀ x ∈ l, b (f x) = 0) →
      dropClasswise f b l = l := by
  intro l
  induction l with
  | nil => intro b _; rfl
  | cons a as ih =>
    intro b hz
    rw [dropClasswise, if_pos (hz a (by simp))]
    exact congrArg _ (ih b (fun x hx => hz x (by simp [hx])))

theorem dropClasswise_update_cons (f : Link → String) (v : String) :
    ∀ (pre : List Link) (b : Link) (post : List Link) (B : String → Nat),
      f b = v → (∀ x ∈ pre, f x ≠ v) →
      dropClasswise f (Function.update B v (B v + 1)) (pre ++ b :: post) =
        dropClasswise f B (pre ++ post) := by
  intro pre
  induction pre with
  | nil =>
    intro b post B hb hpre
    simp only [List.nil_append]
    rw [dropClasswise, hb, Function.update_same]
    rw [if_neg (Nat.succ_ne_zero (B v))]
    have : Function.update (Function.update B v (B v + 1)) v (B v + 1 - 1) = B := by
      rw [Function.update_idem]
      simp [Function.update_eq_self]
    rw [this]
  | cons q pre ih =>
    intro b post B hb hpre
    have hq : f q ≠ v := hpre q (by simp)
    simp only [List.cons_append]
    rw [dropClasswise, dropClasswise, Function.update_noteq hq]
    by_cases h0 : B (f q) = 0
    · rw [if_pos h0, if_pos h0]
      exact congrArg _ (ih b post B hb (fun x hx => hpre x (by simp [hx])))
    · rw [if_neg h0, if_neg h0]
      have hcomm : Function.update (Function.update B v (B v + 1)) (f q) (B (f q) - 1) =
          Function.update (Function.update B (f q) (B (f q) - 1)) v
            (Function.update B (f q) (B (f q) - 1) v + 1) := by
        rw [Function.update_comm (fun h => hq h.symm), Function.update_noteq (fun h => hq h.symm)]
      rw [hcomm]
      exact ih b post (Function.update B (f q) (B (f q) - 1)) hb
        (fun x hx => hpre x (by simp [hx]))

/-- Budget function used by the classwise analysis: how many members of
each projection class the list contains. -/
def classBudget (f : Link → String) (l : List Link) : String → Nat :=
  fun v => (l.filter (fun x => decide (f x = v))).length

theorem classBudget_cons (f : Link → String) (a : Link) (l : List Link) (v : String) :
    classBudget f (a :: l) v =
      (if f a = v then 1 else 0) + classBudget f l v := by
  by_cases h : f a = v
  · simp [classBudget, List.filter_cons, h]
    omega
  · simp [classBudget, List.filter_cons, h]

theorem classBudget_append (f : Link → String) (l1 l2 : List Link) (v : String) :
    classBudget f (l1 ++ l2) v = classBudget f l1 v + classBudget f l2 v := by
  simp [classBudget, List.filter_append]

theorem classBudget_eq_zero (f : Link → String) (l : List Link) (v : String)
    (h : ∀ x ∈ l, f x ≠ v) : classBudget f l v = 0 := by
  simp only [classBudget, List.length_eq_zero, List.filter_eq_nil_iff]
  intro x hx
  simpa using h x hx

theorem matchLoop_unmatched_eq (f : Link → String) :
    ∀ as bs, (matchLoop (projEq f) as bs).2.1 =
      dropClasswise f (classBudget f (unusedOf bs)) as := by
  intro as
  induction as with
  | nil => intro bs; rfl
  | cons a as ih =>
    intro bs
    cases h : markFirst (projEq f a) bs with
    | some x =>
      obtain ⟨b, bs'⟩ := x
      obtain ⟨hp, pre, post, hsplit, hpre, hrest⟩ := markFirst_some (projEq f a) bs b bs' h
      have hfb : f b = f a := (of_decide_eq_true hp).symm
      have hpre' : ∀ x ∈ pre, f x ≠ f a := by
        intro x hx
        have := hpre x hx
        simp only [projEq, decide_eq_false_iff_not] at this
        exact fun hc => this hc.symm
      have hba : classBudget f (unusedOf bs) (f a) = classBudget f post (f a) + 1 := by
        rw [hsplit, classBudget_append, classBudget_eq_zero f pre (f a) hpre',
          classBudget_cons, if_pos hfb]
        omega
      have hup : Function.update (classBudget f (unusedOf bs)) (f a)
          (classBudget f (unusedOf bs) (f a) - 1) = classBudget f (unusedOf bs') := by
        funext v
        by_cases hv : v = f a
        · subst hv
          rw [Function.update_same, hba, hrest, classBudget_append,
            classBudget_eq_zero f pre (f a) hpre']
          omega
        · rw [Function.update_noteq (fun hc => hv hc), hsplit, hrest,
            classBudget_append, classBudget_append, classBudget_cons,
            if_neg (fun hc => hv (hfb ▸ hc).symm)]
          omega
      simp only [matchLoop, h]
      rw [ih bs', dropClasswise, if_neg (by rw [hba]; omega), hup]
    | none =>
      have hall := (markFirst_none (projEq f a) bs).mp h
      have hzero : classBudget f (unusedOf bs) (f a) = 0 := by
        refine classBudget_eq_zero f _ _ ?_
        intro x hx
        have := hall x hx
        simp only [projEq, decide_eq_false_iff_not] at this
        exact fun hc => this hc.symm
      simp only [matchLoop, h]
      rw [ih bs, dropClasswise, if_pos hzero]

theorem matchLoop_unused_eq (f : Link → String) :
    ∀ as bs, unusedOf (matchLoop (projEq f) as bs).2.2 =
      dropClasswise f (classBudget f as) (unusedOf bs) := by
  intro as
  induction as with
  | nil =>
    intro bs
    exact (dropClasswise_zero f (unusedOf bs) _ (fun x _ => rfl)).symm
  | cons a as ih =>
    intro bs
    cases h : markFirst (projEq f a) bs with
    | some x =>
      obtain ⟨b, bs'⟩ := x
      obtain ⟨hp, pre, post, hsplit, hpre, hrest⟩ := markFirst_some (projEq f a) bs b bs' h
      have hfb : f b = f a := (of_decide_eq_true hp).symm
      have hpre' : ∀ x ∈ pre, f x ≠ f a := by
        intro x hx
        have := hpre x hx
        simp only [projEq, decide_eq_false_iff_not] at this
        exact fun hc => this hc.symm
      have hbudget : classBudget f (a :: as) =
          Function.update (classBudget f as) (f a) (classBudget f as (f a) + 1) := by
        funext v
        by_cases hv : v = f a
        · subst hv
          rw [Function.update_same, classBudget_cons, if_pos rfl]
          omega
        · rw [Function.update_noteq (fun hc => hv hc), classBudget_cons,
            if_neg (fun hc => hv hc.symm)]
          omega
      simp only [matchLoop, h]
      rw [ih bs', hbudget, hsplit, dropClasswise_update_cons f (f a) pre b post
        (classBudget f as) hfb hpre', hrest]
    | none =>
      have hall := (markFirst_none (projEq f a) bs).mp h
      simp only [matchLoop, h]
      rw [ih bs]
      refine (dropClasswise_congr f (unusedOf bs) _ _ ?_).symm
      intro x hx
      have := hall x hx
      simp only [projEq, decide_eq_false_iff_not] at this
      rw [classBudget_cons, if_neg this]
      omega

theorem matchLoop_pairs_classwise (f : Link → String) :
    ∀ (as : List Link) (bs : List (Link × Bool)) (V : Finset String),
      (∀ a ∈ as, f a ∈ V) →
      (((matchLoop (projEq f) as bs).1 : List LinkPair) : Multiset LinkPair) =
        ∑ v ∈ V, ((zipPairs (as.filter (fun x => decide (f x = v)))
          ((unusedOf bs).filter (fun x => decide (f x = v)))) : Multiset LinkPair) := by
  intro as
  induction as with
  | nil =>
    intro bs V _
    simp [matchLoop]
  | cons a as ih =>
    intro bs V hV
    have haV : f a ∈ V := hV a (by simp)
    have hV' : ∀ x ∈ as, f x ∈ V := fun x hx => hV x (by simp [hx])
    cases h : markFirst (projEq f a) bs with
    | some x =>
      obtain ⟨b, bs'⟩ := x
      obtain ⟨hp, pre, post, hsplit, hpre, hrest⟩ := markFirst_some (projEq f a) bs b bs' h
      have hfb : f b = f a := (of_decide_eq_true hp).symm
      have hpre' : ∀ x ∈ pre, f x ≠ f a := by
        intro x hx
        have := hpre x hx
        simp only [projEq, decide_eq_false_iff_not] at this
        exact fun hc => this hc.symm
      have hprefil : pre.filter (fun x => decide (f x = f a)) = [] :=
        List.filter_eq_nil_iff.mpr (fun x hx => by simpa using hpre' x hx)
      simp only [matchLoop, h, ← Multiset.cons_coe]
      rw [ih bs' V hV', ← Finset.add_sum_erase V _ haV, ← Finset.add_sum_erase V _ haV,
        ← Multiset.cons_add]
      congr 1
      · rw [hsplit, hrest]
        simp only [List.filter_cons, List.filter_append, hprefil, List.nil_append, hfb]
        simp only [decide_eq_true_eq, eq_self_iff_true, if_true]
        rw [zipPairs_cons_cons]
        exact Multiset.cons_coe _ _
      · refine Finset.sum_congr rfl ?_
        intro v hv
        have hva : v ≠ f a := (Finset.mem_erase.mp hv).1
        rw [hsplit, hrest, List.filter_cons, List.filter_append, List.filter_append,
          List.filter_cons]
        rw [if_neg (by simp only [decide_eq_true_eq]; exact fun hc => hva hc.symm),
          if_neg (by simp only [decide_eq_true_eq]; rw [hfb]; exact fun hc => hva hc.symm)]
    | none =>
      have hall := (markFirst_none (projEq f a) bs).mp h
      have hfil : (unusedOf bs).filter (fun x => decide (f x = f a)) = [] := by
        refine List.filter_eq_nil_iff.mpr ?_
        intro x hx
        have := hall x hx
        simp only [projEq, decide_eq_false_iff_not] at this
        simpa using fun hc => this hc.symm
      simp only [matchLoop, h, ih bs V hV']
      refine Finset.sum_congr rfl ?_
      intro v hv
      by_cases hva : v = f a
      · subst hva
        rw [hfil]
        simp
      · rw [List.filter_cons, if_neg (by simp; exact fun hc => hva hc.symm)]

/-! ### The spec's simplified Pass 2 (positional pairing only)

The spec's open question describes a variant of `compareByPartAndUrl` whose
label-equality residual matching sub-step is removed, leaving only the
positional pairing.  Modelled from the spec: within each `(part, url)`
group, pair the records positionally and record them as
`changedAnchorText`; nothing is true-matched. -/

/-- One group of the simplified Pass 2: no residual label matching, only
positional pairing. -/
def pass2GroupNoResidual (arrA arrB : List Link) : List LinkPair × List LinkPair :=
  ([], zipPairs arrA arrB)

/-- Function `compareByPartAndUrl` with the label-equality sub-step removed. -/
def compareByPartAndUrlNoResidual (linksA linksB : List Link) :
    List LinkPair × List LinkPair :=
  runPass urlKey pass2GroupNoResidual linksA linksB

/-- The correlator with the simplified Pass 2, ghost matched pairs included. -/
def compareDocxHyperlinksNoResidualFull (linksA linksB : List Link) :
    CompareResult × List LinkPair :=
  let p1 := compareByPartAndAnchor linksA linksB
  let accA1 := p1.1.map LinkPair.before ++ p1.2.map LinkPair.before
  let accB1 := p1.1.map LinkPair.after ++ p1.2.map LinkPair.after
  let remA := linksA.filter (fun l => decide (l ∉ accA1))
  let remB := linksB.filter (fun l => decide (l ∉ accB1))
  let p2 := compareByPartAndUrlNoResidual remA remB
  let accA := accA1 ++ p2.1.map LinkPair.before ++ p2.2.map LinkPair.before
  let accB := accB1 ++ p2.1.map LinkPair.after ++ p2.2.map LinkPair.after
  ({ added := linksB.filter (fun l => decide (l ∉ accB)),
     removed := linksA.filter (fun l => decide (l ∉ accA)),
     changedUrl := p1.2,
     changedAnchorText := p2.2 },
   p1.1 ++ p2.1)

/-- The visible result of the simplified correlator. -/
def compareDocxHyperlinksNoResidual (linksA linksB : List Link) : CompareResult :=
  (compareDocxHyperlinksNoResidualFull linksA linksB).1

/-! ### Claim theorems on concrete scenarios -/

/-- C7: Scenario D.  For
`before = [{part:"p", destination:"x", label:"L"}, {part:"p", destination:"y", label:"L"}]`
and
`after = [{part:"p", destination:"x", label:"L"}, {part:"p", destination:"z", label:"L"}]`
the correlator yields exactly one unrecorded true match (the two
destination-"x" records), one `changedUrl` pair with destinations
"y" (before) and "z" (after), and empty `added`, `removed` and
`changedAnchorText`. -/
theorem scenarioD_correct :
    compareDocxHyperlinksFull
      [⟨0, "p", "rId1", some "x", "L"⟩, ⟨1, "p", "rId2", some "y", "L"⟩]
      [⟨2, "p", "rId1", some "x", "L"⟩, ⟨3, "p", "rId2", some "z", "L"⟩] =
    ({ added := [], removed := [],
       changedUrl := [⟨⟨1, "p", "rId2", some "y", "L"⟩, ⟨3, "p", "rId2", some "z", "L"⟩⟩],
       changedAnchorText := [] },
     [⟨⟨0, "p", "rId1", some "x", "L"⟩, ⟨2, "p", "rId1", some "x", "L"⟩⟩]) := by
  rfl

/-- C2 counterexample: the pass-1 grouping key is the string
`part ++ "||" ++ normalizedLabel`, which is not injective in the pair
(part, label); a part containing `"||"` collides with another group, and the
resulting `changedUrl` entry has different parts and different normalized
labels on its two sides, contradicting the claim as stated. -/
theorem changedUrl_same_part_cex :
    ¬ (∀ p ∈ (compareDocxHyperlinks
        [⟨0, "a", "r1", some "u", "b||c"⟩]
        [⟨1, "a||b", "r2", some "v", "c"⟩]).changedUrl,
      p.before.part = p.after.part ∧
        normalizeText p.before.anchorText = normalizeText p.after.anchorText) := by
  decide

/-- C3 counterexample: the pass-2 grouping key is the string
`part ++ "||" ++ normalizedUrl`, which is not injective in the pair
(part, url); a part containing `"||"` collides with another group, and the
resulting `changedAnchorText` entry has different parts and different
normalized destinations on its two sides, contradicting the claim as
stated. -/
theorem changedAnchorText_same_url_cex :
    ¬ (∀ p ∈ (compareDocxHyperlinks
        [⟨0, "a", "r1", some "b||c", "L1"⟩]
        [⟨1, "a||b", "r2", some "c", "L2"⟩]).changedAnchorText,
      p.before.part = p.after.part ∧
        normalizeUrl p.before.url = normalizeUrl p.after.url) := by
  decide

/-- C6 counterexample: with a part containing `"||"`, two records that pass 1
leaves unmatched land in the same pass-2 `(part, url)`-key group and share a
normalized label, so the label-equality residual sub-step of
`compareByPartAndUrl` does consume records, and the correlator differs from
the variant with that sub-step removed. -/
theorem pass2_residual_loop_live_cex :
    compareDocxHyperlinks
        [⟨0, "a", "r1", some "b||x", "L"⟩] [⟨1, "a||b", "r2", some "x", "L"⟩] ≠
      compareDocxHyperlinksNoResidual
        [⟨0, "a", "r1", some "b||x", "L"⟩] [⟨1, "a||b", "r2", some "x", "L"⟩] := by
  decide

/-! ### Grouping partitions the input lists -/

theorem mem_dedupFirstAux :
    ∀ (l seen : List String) (x : String),
      x ∈ dedupFirstAux seen l ↔ x ∈ l ∧ x ∉ seen := by
  intro l
  induction l with
  | nil => intro seen x; simp [dedupFirstAux]
  | cons k rest ih =>
    intro seen x
    by_cases hk : k ∈ seen
    · rw [dedupFirstAux, if_pos hk, ih]
      constructor
      · exact fun h => ⟨by simp [h.1], h.2⟩
      · rintro ⟨hmem, hx⟩
        rcases List.mem_cons.mp hmem with rfl | hmem
        · exact absurd hk hx
        · exact ⟨hmem, hx⟩
    · rw [dedupFirstAux, if_neg hk]
      simp only [List.mem_cons, ih, List.mem_cons, not_or]
      constructor
      · rintro (rfl | ⟨hmem, hne, hseen⟩)
        · exact ⟨Or.inl rfl, hk⟩
        · exact ⟨Or.inr hmem, hseen⟩
      · rintro ⟨rfl | hmem, hseen⟩
        · exact Or.inl rfl
        · by_cases hxk : x = k
          · exact Or.inl hxk
          · exact Or.inr ⟨hmem, hxk, hseen⟩

theorem dedupFirstAux_nodup : ∀ (l seen : List String), (dedupFirstAux seen l).Nodup := by
  intro l
  induction l with
  | nil => intro seen; simp [dedupFirstAux]
  | cons k rest ih =>
    intro seen
    by_cases hk : k ∈ seen
    · rw [dedupFirstAux, if_pos hk]; exact ih seen
    · rw [dedupFirstAux, if_neg hk]
      refine List.nodup_cons.mpr ⟨?_, ih (k :: seen)⟩
      intro hmem
      exact ((mem_dedupFirstAux rest (k :: seen) k).mp hmem).2 (by simp)

theorem allKeys_nodup (f : Link → String) (la lb : List Link) :
    (allKeys f la lb).Nodup := dedupFirstAux_nodup _ []

theorem mem_allKeys (f : Link → String) (la lb : List Link) (k : String) :
    k ∈ allKeys f la lb ↔ k ∈ la.map f ++ lb.map f := by
  rw [allKeys, mem_dedupFirstAux]
  simp

theorem key_mem_allKeys_left (f : Link → String) (la lb : List Link) (x : Link)
    (hx : x ∈ la) : f x ∈ allKeys f la lb := by
  rw [mem_allKeys]
  exact List.mem_append_left _ (List.mem_map_of_mem f hx)

theorem key_mem_allKeys_right (f : Link → String) (la lb : List Link) (x : Link)
    (hx : x ∈ lb) : f x ∈ allKeys f la lb := by
  rw [mem_allKeys]
  exact List.mem_append_right _ (List.mem_map_of_mem f hx)

theorem flatten_grp_perm (f : Link → String) :
    ∀ (keys : List String) (l : List Link), keys.Nodup → (∀ x ∈ l, f x ∈ keys) →
      ((keys.map (fun k => grp f k l)).flatten).Perm l := by
  intro keys
  induction keys with
  | nil =>
    intro l _ hcov
    cases l with
    | nil => simp
    | cons x xs => exact absurd (hcov x (by simp)) (by simp)
  | cons k ks ih =>
    intro l hnd hcov
    have hknotin : k ∉ ks := (List.nodup_cons.mp hnd).1
    have hnd' : ks.Nodup := (List.nodup_cons.mp hnd).2
    have hmapeq : ∀ k' ∈ ks, grp f k' l =
        grp f k' (l.filter (fun x => !(decide (f x = k)))) := by
      intro k' hk'
      have hne : k' ≠ k := fun h => hknotin (h ▸ hk')
      rw [grp, grp, List.filter_filter]
      refine (List.filter_congr ?_).symm
      intro x _
      by_cases hxk' : f x = k'
      · have : ¬ (f x = k) := fun hc => hne (hxk'.symm.trans hc)
        simp [hxk', this, hne]
      · simp [hxk']
    have hcov' : ∀ x ∈ l.filter (fun x => !(decide (f x = k))), f x ∈ ks := by
      intro x hx
      obtain ⟨hxl, hxk⟩ := List.mem_filter.mp hx
      have : f x ≠ k := by simpa using hxk
      rcases List.mem_cons.mp (hcov x hxl) with h | h
      · exact absurd h this
      · exact h
    have hih := ih (l.filter (fun x => !(decide (f x = k)))) hnd' hcov'
    rw [List.map_cons, List.flatten_cons, List.map_congr_left hmapeq]
    refine (List.Perm.append_left (grp f k l) hih).trans ?_
    exact List.filter_append_perm _ l

/-! ### Per-group accounting: all four destinations of every record -/

theorem zipPairs_map_before :
    ∀ xs ys : List Link, (zipPairs xs ys).map LinkPair.before = xs.take ys.length := by
  intro xs
  induction xs with
  | nil => intro ys; simp
  | cons x xs ih =>
    intro ys
    cases ys with
    | nil => simp
    | cons y ys => simp [ih ys]

theorem zipPairs_map_after :
    ∀ xs ys : List Link, (zipPairs xs ys).map LinkPair.after = ys.take xs.length := by
  intro xs
  induction xs with
  | nil => intro ys; simp
  | cons x xs ih =>
    intro ys
    cases ys with
    | nil => simp
    | cons y ys => simp [ih ys]

/-- Copy of `pass1Group` that also returns the records of the group that
neither scan consumed (the residue flowing to Pass 2). -/
def pass1GroupX (arrA arrB : List Link) :
    (List LinkPair × List LinkPair) × (List Link × List Link) :=
  let r1 := matchLoop urlEq arrA (initUsed arrB)
  let r2 := matchLoop (fun _ _ => true) r1.2.1 r1.2.2
  ((r1.1, r2.1), (r2.2.1, unusedOf r2.2.2))

/-- Copy of `pass2Group` that also returns the records of the group left
unconsumed (classified added/removed at the end). -/
def pass2GroupX (arrA arrB : List Link) :
    (List LinkPair × List LinkPair) × (List Link × List Link) :=
  let r1 := matchLoop textEq arrA (initUsed arrB)
  ((r1.1, zipPairs r1.2.1 (unusedOf r1.2.2)),
   (r1.2.1.drop (unusedOf r1.2.2).length, (unusedOf r1.2.2).drop r1.2.1.length))

theorem pass1Group_eq_X (arrA arrB : List Link) :
    pass1Group arrA arrB = (pass1GroupX arrA arrB).1 := rfl

theorem pass2Group_eq_X (arrA arrB : List Link) :
    pass2Group arrA arrB = (pass2GroupX arrA arrB).1 := rfl

theorem pass1GroupX_perm_left (arrA arrB : List Link) :
    ((pass1GroupX arrA arrB).1.1.map LinkPair.before ++
      ((pass1GroupX arrA arrB).1.2.map LinkPair.before ++
        (pass1GroupX arrA arrB).2.1)).Perm arrA := by
  have h1 := matchLoop_perm_left urlEq arrA (initUsed arrB)
  have h2 := matchLoop_perm_left (fun _ _ => true)
    (matchLoop urlEq arrA (initUsed arrB)).2.1
    (matchLoop urlEq arrA (initUsed arrB)).2.2
  exact ((List.Perm.append_left _ h2).trans h1)

theorem pass1GroupX_perm_right (arrA arrB : List Link) :
    ((pass1GroupX arrA arrB).1.1.map LinkPair.after ++
      ((pass1GroupX arrA arrB).1.2.map LinkPair.after ++
        (pass1GroupX arrA arrB).2.2)).Perm arrB := by
  have h1 := matchLoop_perm_right urlEq arrA (initUsed arrB)
  have h2 := matchLoop_perm_right (fun _ _ => true)
    (matchLoop urlEq arrA (initUsed arrB)).2.1
    (matchLoop urlEq arrA (initUsed arrB)).2.2
  rw [unusedOf_initUsed] at h1
  exact ((List.Perm.append_left _ h2).trans h1)

theorem pass2GroupX_perm_left (arrA arrB : List Link) :
    ((pass2GroupX arrA arrB).1.1.map LinkPair.before ++
      ((pass2GroupX arrA arrB).1.2.map LinkPair.before ++
        (pass2GroupX arrA arrB).2.1)).Perm arrA := by
  have h1 := matchLoop_perm_left textEq arrA (initUsed arrB)
  rw [pass2GroupX]
  simp only [zipPairs_map_before]
  rw [List.take_append_drop]
  exact h1

theorem pass2GroupX_perm_right (arrA arrB : List Link) :
    ((pass2GroupX arrA arrB).1.1.map LinkPair.after ++
      ((pass2GroupX arrA arrB).1.2.map LinkPair.after ++
        (pass2GroupX arrA arrB).2.2)).Perm arrB := by
  have h1 := matchLoop_perm_right textEq arrA (initUsed arrB)
  rw [unusedOf_initUsed] at h1
  rw [pass2GroupX]
  simp only [zipPairs_map_after]
  rw [List.take_append_drop]
  exact h1

/-- Copy of `runPass` that also returns the flattened per-group leftovers. -/
def runPassX (f : Link → String)
    (stepX : List Link → List Link →
      (List LinkPair × List LinkPair) × (List Link × List Link))
    (linksA linksB : List Link) :
    (List LinkPair × List LinkPair) × (List Link × List Link) :=
  let keys := allKeys f linksA linksB
  (((keys.map (fun k => (stepX (grp f k linksA) (grp f k linksB)).1.1)).flatten,
    (keys.map (fun k => (stepX (grp f k linksA) (grp f k linksB)).1.2)).flatten),
   ((keys.map (fun k => (stepX (grp f k linksA) (grp f k linksB)).2.1)).flatten,
    (keys.map (fun k => (stepX (grp f k linksA) (grp f k linksB)).2.2)).flatten))

theorem runPass_eq_runPassX (f : Link → String)
    (step : List Link → List Link → List LinkPair × List LinkPair)
    (stepX : List Link → List Link →
      (List LinkPair × List LinkPair) × (List Link × List Link))
    (hstep : ∀ x y, (stepX x y).1 = step x y) (la lb : List Link) :
    runPass f step la lb = (runPassX f stepX la lb).1 := by
  unfold runPass runPassX
  refine Prod.ext ?_ ?_
  · exact (congrArg List.flatten (List.map_congr_left (fun k _ => by rw [hstep]))).symm
  · exact (congrArg List.flatten (List.map_congr_left (fun k _ => by rw [hstep]))).symm

theorem coe_flatten {α : Type} (L : List (List α)) :
    ((L.flatten : List α) : Multiset α) = (L.map Multiset.ofList).sum := by
  induction L with
  | nil => rfl
  | cons h t ih =>
    simp only [List.flatten_cons, List.map_cons, List.sum_cons, ← ih, Multiset.coe_add]

theorem sum_map_add {α : Type} (K : List String) (g1 g2 : String → Multiset α) :
    (K.map g1).sum + (K.map g2).sum = (K.map (fun k => g1 k + g2 k)).sum := by
  induction K with
  | nil => simp
  | cons k K ih =>
    simp only [List.map_cons, List.sum_cons]
    rw [add_add_add_comm, ih]

theorem flatten_append_perm {α : Type} (K : List String) (u v : String → List α) :
    ((K.map u).flatten ++ (K.map v).flatten).Perm
      ((K.map (fun k => u k ++ v k)).flatten) := by
  rw [← Multiset.coe_eq_coe, ← Multiset.coe_add, coe_flatten, coe_flatten, coe_flatten,
    List.map_map, List.map_map, List.map_map, sum_map_add]
  exact congrArg List.sum (List.map_congr_left (fun k _ => Multiset.coe_add _ _))

theorem flatten_map_perm_congr {α : Type} (K : List String) (g h : String → List α)
    (hcong : ∀ k ∈ K, (g k).Perm (h k)) :
    ((K.map g).flatten).Perm ((K.map h).flatten) := by
  induction K with
  | nil => simp
  | cons k K ih =>
    simp only [List.map_cons, List.flatten_cons]
    exact (hcong k (by simp)).append (ih (fun k' hk' => hcong k' (by simp [hk'])))

/-- Accounting lemma behind both passes: if within every group the two pair
lists and the leftover list together exhaust the group, then over all keys
the three flattened components together exhaust the input list. -/
theorem flatten_three_perm (K : List String) (g1 g2 : String → List LinkPair)
    (g3 : String → List Link) (side : LinkPair → Link) (tgt : String → List Link)
    (l : List Link)
    (hgrp : ∀ k ∈ K, (((g1 k).map side) ++ (((g2 k).map side) ++ g3 k)).Perm (tgt k))
    (hpart : ((K.map tgt).flatten).Perm l) :
    ((K.map g1).flatten.map side ++
      (((K.map g2).flatten.map side) ++ (K.map g3).flatten)).Perm l := by
  have e1 : (K.map g1).flatten.map side =
      (K.map (fun k => (g1 k).map side)).flatten := by
    rw [List.map_flatten, List.map_map]
    rfl
  have e2 : (K.map g2).flatten.map side =
      (K.map (fun k => (g2 k).map side)).flatten := by
    rw [List.map_flatten, List.map_map]
    rfl
  rw [e1, e2]
  refine ((List.Perm.append_left _ (flatten_append_perm K _ _)).trans ?_)
  refine (flatten_append_perm K _ _).trans ?_
  exact (flatten_map_perm_congr K _ _ hgrp).trans hpart

/-- Extended pass 1 (groups by `anchorKey`, keeps leftovers). -/
def pass1X (la lb : List Link) :=
  runPassX anchorKey pass1GroupX la lb

/-- Extended pass 2 (groups by `urlKey`, keeps leftovers). -/
def pass2X (la lb : List Link) :=
  runPassX urlKey pass2GroupX la lb

theorem compareByPartAndAnchor_eq_X (la lb : List Link) :
    compareByPartAndAnchor la lb = (pass1X la lb).1 :=
  runPass_eq_runPassX anchorKey pass1Group pass1GroupX
    (fun x y => (pass1Group_eq_X x y).symm) la lb

theorem compareByPartAndUrl_eq_X (la lb : List Link) :
    compareByPartAndUrl la lb = (pass2X la lb).1 :=
  runPass_eq_runPassX urlKey pass2Group pass2GroupX
    (fun x y => (pass2Group_eq_X x y).symm) la lb

theorem pass1X_perm_left (la lb : List Link) :
    ((pass1X la lb).1.1.map LinkPair.before ++
      (((pass1X la lb).1.2.map LinkPair.before) ++ (pass1X la lb).2.1)).Perm la := by
  unfold pass1X runPassX
  exact flatten_three_perm _ _ _ _ LinkPair.before (fun k => grp anchorKey k la) la
    (fun k _ => pass1GroupX_perm_left _ _)
    (flatten_grp_perm anchorKey _ la (allKeys_nodup _ _ _)
      (fun x hx => key_mem_allKeys_left _ _ _ x hx))

theorem pass1X_perm_right (la lb : List Link) :
    ((pass1X la lb).1.1.map LinkPair.after ++
      (((pass1X la lb).1.2.map LinkPair.after) ++ (pass1X la lb).2.2)).Perm lb := by
  unfold pass1X runPassX
  exact flatten_three_perm _ _ _ _ LinkPair.after (fun k => grp anchorKey k lb) lb
    (fun k _ => pass1GroupX_perm_right _ _)
    (flatten_grp_perm anchorKey _ lb (allKeys_nodup _ _ _)
      (fun x hx => key_mem_allKeys_right _ _ _ x hx))

theorem pass2X_perm_left (la lb : List Link) :
    ((pass2X la lb).1.1.map LinkPair.before ++
      (((pass2X la lb).1.2.map LinkPair.before) ++ (pass2X la lb).2.1)).Perm la := by
  unfold pass2X runPassX
  exact flatten_three_perm _ _ _ _ LinkPair.before (fun k => grp urlKey k la) la
    (fun k _ => pass2GroupX_perm_left _ _)
    (flatten_grp_perm urlKey _ la (allKeys_nodup _ _ _)
      (fun x hx => key_mem_allKeys_left _ _ _ x hx))

theorem pass2X_perm_right (la lb : List Link) :
    ((pass2X la lb).1.1.map LinkPair.after ++
      (((pass2X la lb).1.2.map LinkPair.after) ++ (pass2X la lb).2.2)).Perm lb := by
  unfold pass2X runPassX
  exact flatten_three_perm _ _ _ _ LinkPair.after (fun k => grp urlKey k lb) lb
    (fun k _ => pass2GroupX_perm_right _ _)
    (flatten_grp_perm urlKey _ lb (allKeys_nodup _ _ _)
      (fun x hx => key_mem_allKeys_right _ _ _ x hx))

/-! ### Accounting for the full correlator -/

/-- The `accountedA` set after pass 1 (before-records of pass-1 pairs). -/
def acc1Before (la lb : List Link) : List Link :=
  (compareByPartAndAnchor la lb).1.map LinkPair.before ++
    (compareByPartAndAnchor la lb).2.map LinkPair.before

/-- The `accountedB` set after pass 1 (after-records of pass-1 pairs). -/
def acc1After (la lb : List Link) : List Link :=
  (compareByPartAndAnchor la lb).1.map LinkPair.after ++
    (compareByPartAndAnchor la lb).2.map LinkPair.after

/-- The residue of `linksA` flowing into pass 2. -/
def rem1A (la lb : List Link) : List Link :=
  la.filter (fun l => decide (l ∉ acc1Before la lb))

/-- The residue of `linksB` flowing into pass 2. -/
def rem1B (la lb : List Link) : List Link :=
  lb.filter (fun l => decide (l ∉ acc1After la lb))

/-- The final `accountedA` set. -/
def accBefore (la lb : List Link) : List Link :=
  acc1Before la lb ++
    (compareByPartAndUrl (rem1A la lb) (rem1B la lb)).1.map LinkPair.before ++
    (compareByPartAndUrl (rem1A la lb) (rem1B la lb)).2.map LinkPair.before

/-- The final `accountedB` set. -/
def accAfter (la lb : List Link) : List Link :=
  acc1After la lb ++
    (compareByPartAndUrl (rem1A la lb) (rem1B la lb)).1.map LinkPair.after ++
    (compareByPartAndUrl (rem1A la lb) (rem1B la lb)).2.map LinkPair.after

theorem compareDocxHyperlinksFull_unfold (la lb : List Link) :
    compareDocxHyperlinksFull la lb =
      ({ added := lb.filter (fun l => decide (l ∉ accAfter la lb)),
         removed := la.filter (fun l => decide (l ∉ accBefore la lb)),
         changedUrl := (compareByPartAndAnchor la lb).2,
         changedAnchorText :=
           (compareByPartAndUrl (rem1A la lb) (rem1B la lb)).2 },
       (compareByPartAndAnchor la lb).1 ++
         (compareByPartAndUrl (rem1A la lb) (rem1B la lb)).1) := rfl

theorem acc1Before_residual_perm (la lb : List Link) :
    (acc1Before la lb ++ (pass1X la lb).2.1).Perm la := by
  rw [acc1Before, compareByPartAndAnchor_eq_X, List.append_assoc]
  exact pass1X_perm_left la lb

theorem acc1After_residual_perm (la lb : List Link) :
    (acc1After la lb ++ (pass1X la lb).2.2).Perm lb := by
  rw [acc1After, compareByPartAndAnchor_eq_X, List.append_assoc]
  exact pass1X_perm_right la lb

theorem acc2Before_residual_perm (a b : List Link) :
    (((compareByPartAndUrl a b).1.map LinkPair.before ++
      (compareByPartAndUrl a b).2.map LinkPair.before) ++ (pass2X a b).2.1).Perm a := by
  rw [compareByPartAndUrl_eq_X, List.append_assoc]
  exact pass2X_perm_left a b

theorem acc2After_residual_perm (a b : List Link) :
    (((compareByPartAndUrl a b).1.map LinkPair.after ++
      (compareByPartAndUrl a b).2.map LinkPair.after) ++ (pass2X a b).2.2).Perm b := by
  rw [compareByPartAndUrl_eq_X, List.append_assoc]
  exact pass2X_perm_right a b

theorem nodup_sub_of_perm_append (acc res l : List Link) (h : (acc ++ res).Perm l)
    (hl : l.Nodup) : acc.Nodup ∧ ∀ x ∈ acc, x ∈ l := by
  have hnd : (acc ++ res).Nodup := h.nodup_iff.mpr hl
  exact ⟨(List.nodup_append.mp hnd).1, fun x hx => h.subset (List.mem_append_left res hx)⟩

theorem filter_not_mem_length (l acc : List Link) (hl : l.Nodup) (hacc : acc.Nodup)
    (hsub : ∀ x ∈ acc, x ∈ l) :
    (l.filter (fun x => decide (x ∉ acc))).length + acc.length = l.length := by
  have hperm := List.filter_append_perm (fun x => decide (x ∉ acc)) l
  have hneg : l.filter (fun x => !(decide (x ∉ acc))) =
      l.filter (fun x => decide (x ∈ acc)) :=
    List.filter_congr (fun x _ => by by_cases h : x ∈ acc <;> simp [h])
  have hmemperm : (l.filter (fun x => decide (x ∈ acc))).Perm acc := by
    refine (List.perm_ext_iff_of_nodup (hl.filter _) hacc).mpr ?_
    intro x
    simp only [List.mem_filter, decide_eq_true_eq]
    exact ⟨fun h => h.2, fun h => ⟨hsub x h, h⟩⟩
  have hlen := hperm.length_eq
  rw [List.length_append, hneg, hmemperm.length_eq] at hlen
  exact hlen

theorem accBefore_nodup_sub (la lb : List Link) (hla : la.Nodup) :
    (accBefore la lb).Nodup ∧ ∀ x ∈ accBefore la lb, x ∈ la := by
  obtain ⟨h1nd, h1sub⟩ :=
    nodup_sub_of_perm_append _ _ _ (acc1Before_residual_perm la lb) hla
  have hremnd : (rem1A la lb).Nodup := hla.filter _
  obtain ⟨h2nd, h2sub⟩ := nodup_sub_of_perm_append _ _ _
    (acc2Before_residual_perm (rem1A la lb) (rem1B la lb)) hremnd
  have hdisj : List.Disjoint (acc1Before la lb)
      ((compareByPartAndUrl (rem1A la lb) (rem1B la lb)).1.map LinkPair.before ++
        (compareByPartAndUrl (rem1A la lb) (rem1B la lb)).2.map LinkPair.before) := by
    intro x hx hx2
    have hxrem : x ∈ rem1A la lb := h2sub x hx2
    have : x ∉ acc1Before la lb := by
      have := List.mem_filter.mp hxrem
      simpa using this.2
    exact this hx
  constructor
  · rw [accBefore, List.append_assoc]
    exact List.nodup_append.mpr ⟨h1nd, h2nd, hdisj⟩
  · intro x hx
    rw [accBefore, List.append_assoc] at hx
    rcases List.mem_append.mp hx with hx | hx
    · exact h1sub x hx
    · exact List.mem_of_mem_filter (h2sub x hx)

theorem accAfter_nodup_sub (la lb : List Link) (hlb : lb.Nodup) :
    (accAfter la lb).Nodup ∧ ∀ x ∈ accAfter la lb, x ∈ lb := by
  obtain ⟨h1nd, h1sub⟩ :=
    nodup_sub_of_perm_append _ _ _ (acc1After_residual_perm la lb) hlb
  have hremnd : (rem1B la lb).Nodup := hlb.filter _
  obtain ⟨h2nd, h2sub⟩ := nodup_sub_of_perm_append _ _ _
    (acc2After_residual_perm (rem1A la lb) (rem1B la lb)) hremnd
  have hdisj : List.Disjoint (acc1After la lb)
      ((compareByPartAndUrl (rem1A la lb) (rem1B la lb)).1.map LinkPair.after ++
        (compareByPartAndUrl (rem1A la lb) (rem1B la lb)).2.map LinkPair.after) := by
    intro x hx hx2
    have hxrem : x ∈ rem1B la lb := h2sub x hx2
    have : x ∉ acc1After la lb := by
      have := List.mem_filter.mp hxrem
      simpa using this.2
    exact this hx
  constructor
  · rw [accAfter, List.append_assoc]
    exact List.nodup_append.mpr ⟨h1nd, h2nd, hdisj⟩
  · intro x hx
    rw [accAfter, List.append_assoc] at hx
    rcases List.mem_append.mp hx with hx | hx
    · exact h1sub x hx
    · exact List.mem_of_mem_filter (h2sub x hx)

/-- C1: completeness of the classification.  With pairwise distinct records
on each side (distinct ids model distinct JavaScript objects), every record
of `before` and `after` is accounted exactly once: the bucket sizes plus
twice the number of unrecorded true matches add up to the two input
lengths. -/
theorem classification_complete (la lb : List Link)
    (h1 : (la.map Link.id).Nodup) (h2 : (lb.map Link.id).Nodup) :
    (compareDocxHyperlinks la lb).added.length +
      (compareDocxHyperlinks la lb).removed.length +
      2 * (compareDocxHyperlinks la lb).changedUrl.length +
      2 * (compareDocxHyperlinks la lb).changedAnchorText.length +
      2 * (matchedPairs la lb).length = la.length + lb.length := by
  have hla : la.Nodup := h1.of_map
  have hlb : lb.Nodup := h2.of_map
  obtain ⟨hand, hasub⟩ := accBefore_nodup_sub la lb hla
  obtain ⟨hbnd, hbsub⟩ := accAfter_nodup_sub la lb hlb
  have hA := filter_not_mem_length la (accBefore la lb) hla hand hasub
  have hB := filter_not_mem_length lb (accAfter la lb) hlb hbnd hbsub
  have hremoved : (compareDocxHyperlinks la lb).removed =
      la.filter (fun x => decide (x ∉ accBefore la lb)) := by
    rw [compareDocxHyperlinks, compareDocxHyperlinksFull_unfold]
  have hadded : (compareDocxHyperlinks la lb).added =
      lb.filter (fun x => decide (x ∉ accAfter la lb)) := by
    rw [compareDocxHyperlinks, compareDocxHyperlinksFull_unfold]
  have hcu : (compareDocxHyperlinks la lb).changedUrl =
      (compareByPartAndAnchor la lb).2 := by
    rw [compareDocxHyperlinks, compareDocxHyperlinksFull_unfold]
  have hcat : (compareDocxHyperlinks la lb).changedAnchorText =
      (compareByPartAndUrl (rem1A la lb) (rem1B la lb)).2 := by
    rw [compareDocxHyperlinks, compareDocxHyperlinksFull_unfold]
  have hm : matchedPairs la lb = (compareByPartAndAnchor la lb).1 ++
      (compareByPartAndUrl (rem1A la lb) (rem1B la lb)).1 := by
    rw [matchedPairs, compareDocxHyperlinksFull_unfold]
  have hlenA : (accBefore la lb).length =
      (compareByPartAndAnchor la lb).1.length +
        (compareByPartAndAnchor la lb).2.length +
        (compareByPartAndUrl (rem1A la lb) (rem1B la lb)).1.length +
        (compareByPartAndUrl (rem1A la lb) (rem1B la lb)).2.length := by
    simp [accBefore, acc1Before]
    omega
  have hlenB : (accAfter la lb).length =
      (compareByPartAndAnchor la lb).1.length +
        (compareByPartAndAnchor la lb).2.length +
        (compareByPartAndUrl (rem1A la lb) (rem1B la lb)).1.length +
        (compareByPartAndUrl (rem1A la lb) (rem1B la lb)).2.length := by
    simp [accAfter, acc1After]
    omega
  rw [hremoved, hadded, hcu, hcat, hm] at *
  rw [List.length_append]
  omega

/-- Witness for C1: the completeness equation holds concretely on the
Scenario D lists, whose ids are pairwise distinct on each side. -/
theorem classification_complete_witness :
    ((([⟨0, "p", "rId1", some "x", "L"⟩, ⟨1, "p", "rId2", some "y", "L"⟩] :
        List Link).map Link.id).Nodup) ∧
    ((([⟨2, "p", "rId1", some "x", "L"⟩, ⟨3, "p", "rId2", some "z", "L"⟩] :
        List Link).map Link.id).Nodup) ∧
    (compareDocxHyperlinks
        [⟨0, "p", "rId1", some "x", "L"⟩, ⟨1, "p", "rId2", some "y", "L"⟩]
        [⟨2, "p", "rId1", some "x", "L"⟩, ⟨3, "p", "rId2", some "z", "L"⟩]).added.length +
      (compareDocxHyperlinks
        [⟨0, "p", "rId1", some "x", "L"⟩, ⟨1, "p", "rId2", some "y", "L"⟩]
        [⟨2, "p", "rId1", some "x", "L"⟩, ⟨3, "p", "rId2", some "z", "L"⟩]).removed.length +
      2 * (compareDocxHyperlinks
        [⟨0, "p", "rId1", some "x", "L"⟩, ⟨1, "p", "rId2", some "y", "L"⟩]
        [⟨2, "p", "rId1", some "x", "L"⟩, ⟨3, "p", "rId2", some "z", "L"⟩]).changedUrl.length +
      2 * (compareDocxHyperlinks
        [⟨0, "p", "rId1", some "x", "L"⟩, ⟨1, "p", "rId2", some "y", "L"⟩]
        [⟨2, "p", "rId1", some "x", "L"⟩, ⟨3, "p", "rId2", some "z", "L"⟩]).changedAnchorText.length +
      2 * (matchedPairs
        [⟨0, "p", "rId1", some "x", "L"⟩, ⟨1, "p", "rId2", some "y", "L"⟩]
        [⟨2, "p", "rId1", some "x", "L"⟩, ⟨3, "p", "rId2", some "z", "L"⟩]).length =
      ([⟨0, "p", "rId1", some "x", "L"⟩, ⟨1, "p", "rId2", some "y", "L"⟩] :
        List Link).length +
      ([⟨2, "p", "rId1", some "x", "L"⟩, ⟨3, "p", "rId2", some "z", "L"⟩] :
        List Link).length :=
  ⟨by decide, by decide,
    classification_complete _ _ (by decide) (by decide)⟩

/-! ### Idempotence -/

theorem dropClasswise_nil (f : Link → String) :
    ∀ (l : List Link) (b : String → Nat), (∀ v, classBudget f l v ≤ b v) →
      dropClasswise f b l = [] := by
  intro l
  induction l with
  | nil => intro b _; rfl
  | cons a as ih =>
    intro b hle
    have ha := hle (f a)
    rw [classBudget_cons, if_pos rfl] at ha
    rw [dropClasswise, if_neg (by omega)]
    refine ih _ ?_
    intro v
    have hv := hle v
    rw [classBudget_cons] at hv
    by_cases hva : v = f a
    · subst hva
      rw [Function.update_same]
      rw [if_pos rfl] at hv
      omega
    · rw [Function.update_noteq (fun hc => hva hc)]
      rw [if_neg (fun hc => hva hc.symm)] at hv
      omega

theorem pass1GroupX_idem (g : List Link) :
    (pass1GroupX g g).1.2 = [] ∧ (pass1GroupX g g).2.1 = [] ∧
      (pass1GroupX g g).2.2 = [] := by
  have hus : (matchLoop urlEq g (initUsed g)).2.1 = [] := by
    rw [urlEq_eq_projEq, matchLoop_unmatched_eq, unusedOf_initUsed]
    exact dropClasswise_nil _ g _ (fun v => le_refl _)
  have hun : unusedOf (matchLoop urlEq g (initUsed g)).2.2 = [] := by
    rw [urlEq_eq_projEq, matchLoop_unused_eq, unusedOf_initUsed]
    exact dropClasswise_nil _ g _ (fun v => le_refl _)
  refine ⟨?_, ?_, ?_⟩
  · show (matchLoop (fun _ _ => true) (matchLoop urlEq g (initUsed g)).2.1
      (matchLoop urlEq g (initUsed g)).2.2).1 = []
    rw [hus, matchLoop]
  · show (matchLoop (fun _ _ => true) (matchLoop urlEq g (initUsed g)).2.1
      (matchLoop urlEq g (initUsed g)).2.2).2.1 = []
    rw [hus, matchLoop]
  · show unusedOf (matchLoop (fun _ _ => true) (matchLoop urlEq g (initUsed g)).2.1
      (matchLoop urlEq g (initUsed g)).2.2).2.2 = []
    rw [hus, matchLoop, hun]

theorem flatten_map_nil {α : Type} (K : List String) (g : String → List α)
    (h : ∀ k, g k = []) : (K.map g).flatten = [] := by
  induction K with
  | nil => rfl
  | cons k K ih => simp [h, ih]

theorem pass1X_idem_parts (la : List Link) :
    (pass1X la la).1.2 = [] ∧ (pass1X la la).2.1 = [] ∧ (pass1X la la).2.2 = [] := by
  unfold pass1X runPassX
  exact ⟨flatten_map_nil _ _ (fun k => (pass1GroupX_idem _).1),
    flatten_map_nil _ _ (fun k => (pass1GroupX_idem _).2.1),
    flatten_map_nil _ _ (fun k => (pass1GroupX_idem _).2.2)⟩

theorem acc1Before_idem_perm (la : List Link) : (acc1Before la la).Perm la := by
  have h := acc1Before_residual_perm la la
  rw [(pass1X_idem_parts la).2.1, List.append_nil] at h
  exact h

theorem acc1After_idem_perm (la : List Link) : (acc1After la la).Perm la := by
  have h := acc1After_residual_perm la la
  rw [(pass1X_idem_parts la).2.2, List.append_nil] at h
  exact h

theorem rem1A_idem (la : List Link) : rem1A la la = [] := by
  rw [rem1A]
  refine List.filter_eq_nil_iff.mpr ?_
  intro x hx
  simpa using (acc1Before_idem_perm la).mem_iff.mpr hx

theorem rem1B_idem (la : List Link) : rem1B la la = [] := by
  rw [rem1B]
  refine List.filter_eq_nil_iff.mpr ?_
  intro x hx
  simpa using (acc1After_idem_perm la).mem_iff.mpr hx

/-- C4: idempotence of true matches.  Comparing a list with an identical
copy of itself classifies nothing as added, removed, url-changed or
label-changed, and the pass-1 true matches consume every record (their
before-records are a permutation of the input). -/
theorem compareDocxHyperlinks_idem (la : List Link) :
    compareDocxHyperlinks la la =
      { added := [], removed := [], changedUrl := [], changedAnchorText := [] } ∧
      ((matchedPairs la la).map LinkPair.before).Perm la := by
  have hcu : (compareByPartAndAnchor la la).2 = [] := by
    rw [compareByPartAndAnchor_eq_X]
    exact (pass1X_idem_parts la).1
  have hp2 : compareByPartAndUrl (rem1A la la) (rem1B la la) = ([], []) := by
    rw [rem1A_idem la, rem1B_idem la]
    rfl
  have hremoved : la.filter (fun x => decide (x ∉ accBefore la la)) = [] := by
    refine List.filter_eq_nil_iff.mpr ?_
    intro x hx
    have hmem : x ∈ accBefore la la := by
      rw [accBefore, hp2]
      simpa using (acc1Before_idem_perm la).mem_iff.mpr hx
    simpa using hmem
  have hadded : la.filter (fun x => decide (x ∉ accAfter la la)) = [] := by
    refine List.filter_eq_nil_iff.mpr ?_
    intro x hx
    have hmem : x ∈ accAfter la la := by
      rw [accAfter, hp2]
      simpa using (acc1After_idem_perm la).mem_iff.mpr hx
    simpa using hmem
  constructor
  · rw [compareDocxHyperlinks, compareDocxHyperlinksFull_unfold]
    simp only [CompareResult.mk.injEq]
    exact ⟨hadded, hremoved, hcu, by rw [hp2]⟩
  · have hm : matchedPairs la la = (compareByPartAndAnchor la la).1 := by
      rw [matchedPairs, compareDocxHyperlinksFull_unfold]
      simp only [hp2, List.append_nil]
    rw [hm]
    have hacc := acc1Before_idem_perm la
    rw [acc1Before, hcu] at hacc
    simpa using hacc

/-! ### The removed/added buckets are ordered residues (C9) and every
output record is an input record (C10) -/

/-- The before-records consumed by any pair (ghost matched, changedUrl or
changedAnchorText) — the content of the source's `accountedA` set. -/
def consumedBefore (la lb : List Link) : List Link :=
  (matchedPairs la lb).map LinkPair.before ++
    (compareDocxHyperlinks la lb).changedUrl.map LinkPair.before ++
    (compareDocxHyperlinks la lb).changedAnchorText.map LinkPair.before

/-- The after-records consumed by any pair — the content of the source's
`accountedB` set. -/
def consumedAfter (la lb : List Link) : List Link :=
  (matchedPairs la lb).map LinkPair.after ++
    (compareDocxHyperlinks la lb).changedUrl.map LinkPair.after ++
    (compareDocxHyperlinks la lb).changedAnchorText.map LinkPair.after

theorem accBefore_mem_iff_consumed (la lb : List Link) (x : Link) :
    x ∈ accBefore la lb ↔ x ∈ consumedBefore la lb := by
  rw [accBefore, consumedBefore, acc1Before, matchedPairs,
    compareDocxHyperlinksFull_unfold, compareDocxHyperlinks,
    compareDocxHyperlinksFull_unfold]
  simp only [List.mem_append, List.map_append]
  tauto

theorem accAfter_mem_iff_consumed (la lb : List Link) (x : Link) :
    x ∈ accAfter la lb ↔ x ∈ consumedAfter la lb := by
  rw [accAfter, consumedAfter, acc1After, matchedPairs,
    compareDocxHyperlinksFull_unfold, compareDocxHyperlinks,
    compareDocxHyperlinksFull_unfold]
  simp only [List.mem_append, List.map_append]
  tauto

/-- C9: `removed` is exactly the subsequence of the unconsumed records of
`before`, in original order, and `added` is exactly the subsequence of the
unconsumed records of `after`, in original order. -/
theorem removed_added_ordered_residues (la lb : List Link) :
    (compareDocxHyperlinks la lb).removed =
      la.filter (fun l => decide (l ∉ consumedBefore la lb)) ∧
    List.Sublist (compareDocxHyperlinks la lb).removed la ∧
    (compareDocxHyperlinks la lb).added =
      lb.filter (fun l => decide (l ∉ consumedAfter la lb)) ∧
    List.Sublist (compareDocxHyperlinks la lb).added lb := by
  have hrem : (compareDocxHyperlinks la lb).removed =
      la.filter (fun l => decide (l ∉ accBefore la lb)) := by
    rw [compareDocxHyperlinks, compareDocxHyperlinksFull_unfold]
  have hadd : (compareDocxHyperlinks la lb).added =
      lb.filter (fun l => decide (l ∉ accAfter la lb)) := by
    rw [compareDocxHyperlinks, compareDocxHyperlinksFull_unfold]
  refine ⟨?_, ?_, ?_, ?_⟩
  · rw [hrem]
    refine List.filter_congr ?_
    intro x _
    rw [decide_eq_decide]
    exact not_congr (accBefore_mem_iff_consumed la lb x)
  · rw [hrem]
    exact List.filter_sublist la
  · rw [hadd]
    refine List.filter_congr ?_
    intro x _
    rw [decide_eq_decide]
    exact not_congr (accAfter_mem_iff_consumed la lb x)
  · rw [hadd]
    exact List.filter_sublist lb

theorem mem_of_perm_append_left {acc res l : List Link} (h : (acc ++ res).Perm l)
    {x : Link} (hx : x ∈ acc) : x ∈ l :=
  h.subset (List.mem_append_left res hx)

/-- C10: every record placed in a result bucket is one of the input record
objects, unmodified — the pure correlator returns its inputs' records
themselves (mutation-freedom is inherent in the functional embedding). -/
theorem correlator_returns_input_records (la lb : List Link) :
    (∀ p ∈ matchedPairs la lb, p.before ∈ la ∧ p.after ∈ lb) ∧
    (∀ p ∈ (compareDocxHyperlinks la lb).changedUrl, p.before ∈ la ∧ p.after ∈ lb) ∧
    (∀ p ∈ (compareDocxHyperlinks la lb).changedAnchorText,
      p.before ∈ la ∧ p.after ∈ lb) ∧
    (∀ x ∈ (compareDocxHyperlinks la lb).removed, x ∈ la) ∧
    (∀ x ∈ (compareDocxHyperlinks la lb).added, x ∈ lb) := by
  have hbefore1 : ∀ p ∈ (compareByPartAndAnchor la lb).1, p.before ∈ la := by
    intro p hp
    refine mem_of_perm_append_left (acc1Before_residual_perm la lb) ?_
    exact List.mem_append_left _ (List.mem_map_of_mem _ hp)
  have hbefore1' : ∀ p ∈ (compareByPartAndAnchor la lb).2, p.before ∈ la := by
    intro p hp
    refine mem_of_perm_append_left (acc1Before_residual_perm la lb) ?_
    exact List.mem_append_right _ (List.mem_map_of_mem _ hp)
  have hafter1 : ∀ p ∈ (compareByPartAndAnchor la lb).1, p.after ∈ lb := by
    intro p hp
    refine mem_of_perm_append_left (acc1After_residual_perm la lb) ?_
    exact List.mem_append_left _ (List.mem_map_of_mem _ hp)
  have hafter1' : ∀ p ∈ (compareByPartAndAnchor la lb).2, p.after ∈ lb := by
    intro p hp
    refine mem_of_perm_append_left (acc1After_residual_perm la lb) ?_
    exact List.mem_append_right _ (List.mem_map_of_mem _ hp)
  have hbefore2 : ∀ p ∈ (compareByPartAndUrl (rem1A la lb) (rem1B la lb)).1,
      p.before ∈ la := by
    intro p hp
    have : p.before ∈ rem1A la lb := by
      refine mem_of_perm_append_left
        (acc2Before_residual_perm (rem1A la lb) (rem1B la lb)) ?_
      exact List.mem_append_left _ (List.mem_map_of_mem _ hp)
    exact List.mem_of_mem_filter this
  have hbefore2' : ∀ p ∈ (compareByPartAndUrl (rem1A la lb) (rem1B la lb)).2,
      p.before ∈ la := by
    intro p hp
    have : p.before ∈ rem1A la lb := by
      refine mem_of_perm_append_left
        (acc2Before_residual_perm (rem1A la lb) (rem1B la lb)) ?_
      exact List.mem_append_right _ (List.mem_map_of_mem _ hp)
    exact List.mem_of_mem_filter this
  have hafter2 : ∀ p ∈ (compareByPartAndUrl (rem1A la lb) (rem1B la lb)).1,
      p.after ∈ lb := by
    intro p hp
    have : p.after ∈ rem1B la lb := by
      refine mem_of_perm_append_left
        (acc2After_residual_perm (rem1A la lb) (rem1B la lb)) ?_
      exact List.mem_append_left _ (List.mem_map_of_mem _ hp)
    exact List.mem_of_mem_filter this
  have hafter2' : ∀ p ∈ (compareByPartAndUrl (rem1A la lb) (rem1B la lb)).2,
      p.after ∈ lb := by
    intro p hp
    have : p.after ∈ rem1B la lb := by
      refine mem_of_perm_append_left
        (acc2After_residual_perm (rem1A la lb) (rem1B la lb)) ?_
      exact List.mem_append_right _ (List.mem_map_of_mem _ hp)
    exact List.mem_of_mem_filter this
  refine ⟨?_, ?_, ?_, ?_, ?_⟩
  · intro p hp
    rw [matchedPairs, compareDocxHyperlinksFull_unfold] at hp
    rcases List.mem_append.mp hp with hp | hp
    · exact ⟨hbefore1 p hp, hafter1 p hp⟩
    · exact ⟨hbefore2 p hp, hafter2 p hp⟩
  · intro p hp
    rw [compareDocxHyperlinks, compareDocxHyperlinksFull_unfold] at hp
    exact ⟨hbefore1' p hp, hafter1' p hp⟩
  · intro p hp
    rw [compareDocxHyperlinks, compareDocxHyperlinksFull_unfold] at hp
    exact ⟨hbefore2' p hp, hafter2' p hp⟩
  · intro x hx
    rw [compareDocxHyperlinks, compareDocxHyperlinksFull_unfold] at hx
    exact List.mem_of_mem_filter hx
  · intro x hx
    rw [compareDocxHyperlinks, compareDocxHyperlinksFull_unfold] at hx
    exact List.mem_of_mem_filter hx

/-- Witness for C10 at the Scenario D input: the changedUrl pair consists of
the second before-record and the second after-record themselves. -/
theorem correlator_returns_input_records_witness :
    (⟨⟨1, "p", "rId2", some "y", "L"⟩, ⟨3, "p", "rId2", some "z", "L"⟩⟩ :
        LinkPair).before ∈
      ([⟨0, "p", "rId1", some "x", "L"⟩, ⟨1, "p", "rId2", some "y", "L"⟩] :
        List Link) ∧
    (⟨⟨1, "p", "rId2", some "y", "L"⟩, ⟨3, "p", "rId2", some "z", "L"⟩⟩ :
        LinkPair).after ∈
      ([⟨2, "p", "rId1", some "x", "L"⟩, ⟨3, "p", "rId2", some "z", "L"⟩] :
        List Link) :=
  (correlator_returns_input_records
      [⟨0, "p", "rId1", some "x", "L"⟩, ⟨1, "p", "rId2", some "y", "L"⟩]
      [⟨2, "p", "rId1", some "x", "L"⟩, ⟨3, "p", "rId2", some "z", "L"⟩]).2.1
    ⟨⟨1, "p", "rId2", some "y", "L"⟩, ⟨3, "p", "rId2", some "z", "L"⟩⟩ (by decide)

/-! ### What the changed-pair buckets guarantee (C2, C3) -/

theorem mem_zipPairs {p : LinkPair} {xs ys : List Link} (hp : p ∈ zipPairs xs ys) :
    p.before ∈ xs ∧ p.after ∈ ys := by
  obtain ⟨⟨a, b⟩, hab, rfl⟩ := List.mem_map.mp hp
  exact List.of_mem_zip hab

theorem matchLoop_us_subset (p : Link → Link → Bool) (as : List Link)
    (bs : List (Link × Bool)) : ∀ a ∈ (matchLoop p as bs).2.1, a ∈ as := by
  intro a ha
  exact (matchLoop_perm_left p as bs).subset (List.mem_append_right _ ha)

theorem mem_grp {f : Link → String} {k : String} {l : List Link} {x : Link} :
    x ∈ grp f k l ↔ x ∈ l ∧ f x = k := by
  simp [grp]

/-- Within one pass-1 group, every `changedUrl` pair joins a group member on
each side, and the two normalized urls always differ. -/
theorem pass1GroupX_cu_spec (arrA arrB : List Link) :
    ∀ p ∈ (pass1GroupX arrA arrB).1.2,
      p.before ∈ arrA ∧ p.after ∈ arrB ∧ urlEq p.before p.after = false := by
  intro p hp
  have hr2 : (pass1GroupX arrA arrB).1.2 =
      zipPairs (matchLoop urlEq arrA (initUsed arrB)).2.1
        (unusedOf (matchLoop urlEq arrA (initUsed arrB)).2.2) :=
    (matchLoop_true_eq _ _).1
  rw [hr2] at hp
  obtain ⟨hbef, haft⟩ := mem_zipPairs hp
  refine ⟨matchLoop_us_subset urlEq arrA _ _ hbef, ?_, ?_⟩
  · have hsub := matchLoop_unused_sublist urlEq arrA (initUsed arrB)
    rw [unusedOf_initUsed] at hsub
    exact hsub.mem haft
  · exact matchLoop_no_match urlEq arrA (initUsed arrB) p.before hbef p.after haft

/-- Within one pass-2 group, every `changedAnchorText` pair joins a group
member on each side, and the two normalized labels always differ. -/
theorem pass2GroupX_cat_spec (arrA arrB : List Link) :
    ∀ p ∈ (pass2GroupX arrA arrB).1.2,
      p.before ∈ arrA ∧ p.after ∈ arrB ∧ textEq p.before p.after = false := by
  intro p hp
  obtain ⟨hbef, haft⟩ := mem_zipPairs hp
  refine ⟨matchLoop_us_subset textEq arrA _ _ hbef, ?_, ?_⟩
  · have hsub := matchLoop_unused_sublist textEq arrA (initUsed arrB)
    rw [unusedOf_initUsed] at hsub
    exact hsub.mem haft
  · exact matchLoop_no_match textEq arrA (initUsed arrB) p.before hbef p.after haft

theorem runPassX_pairs2_decomp (f : Link → String)
    (stepX : List Link → List Link →
      (List LinkPair × List LinkPair) × (List Link × List Link))
    (la lb : List Link) {p : LinkPair} (hp : p ∈ (runPassX f stepX la lb).1.2) :
    ∃ k, p ∈ (stepX (grp f k la) (grp f k lb)).1.2 := by
  unfold runPassX at hp
  simp only at hp
  obtain ⟨l, hl, hpl⟩ := List.mem_flatten.mp hp
  obtain ⟨k, -, rfl⟩ := List.mem_map.mp hl
  exact ⟨k, hpl⟩

theorem pipefree_sep_inj :
    ∀ (x1 x2 r1 r2 : List Char), '|' ∉ x1 → '|' ∉ x2 →
      x1 ++ '|' :: '|' :: r1 = x2 ++ '|' :: '|' :: r2 → x1 = x2 ∧ r1 = r2 := by
  intro x1
  induction x1 with
  | nil =>
    intro x2 r1 r2 _ h2 heq
    cases x2 with
    | nil => simpa using heq
    | cons d x2' =>
      exfalso
      have : '|' = d := by simpa using congrArg (fun l => l.head?) heq
      exact h2 (by simp [← this])
  | cons c x1' ih =>
    intro x2 r1 r2 h1 h2 heq
    cases x2 with
    | nil =>
      exfalso
      have : c = '|' := by simpa using congrArg (fun l => l.head?) heq
      exact h1 (by simp [this])
    | cons d x2' =>
      simp only [List.cons_append, List.cons.injEq] at heq
      obtain ⟨rfl, heq⟩ := heq
      obtain ⟨hx, hr⟩ := ih x2' r1 r2 (fun h => h1 (by simp [h]))
        (fun h => h2 (by simp [h])) heq
      exact ⟨by rw [hx], hr⟩

/-- Injectivity of the `part ++ "||" ++ tail` keys when the parts contain no
pipe character. -/
theorem sep_key_inj (p1 p2 t1 t2 : String)
    (h1 : '|' ∉ p1.data) (h2 : '|' ∉ p2.data)
    (heq : p1 ++ "||" ++ t1 = p2 ++ "||" ++ t2) : p1 = p2 ∧ t1 = t2 := by
  have hdata : p1.data ++ '|' :: '|' :: t1.data =
      p2.data ++ '|' :: '|' :: t2.data := by
    have := congrArg String.data heq
    simpa [String.data_append, List.append_assoc] using this
  obtain ⟨hp, ht⟩ := pipefree_sep_inj p1.data p2.data t1.data t2.data h1 h2 hdata
  exact ⟨String.ext hp, String.ext ht⟩

/-- C2 (amended): every `changedUrl` entry pairs two records with equal
pass-1 group keys `part ++ "||" ++ normalizedLabel` and with different
normalized destinations; whenever the two parts contain no pipe character —
in particular for the real part names `document.xml`, `headerN.xml`,
`footerN.xml` — equal keys further force equal parts and equal normalized
labels. -/
theorem changedUrl_entries_spec (la lb : List Link) :
    ∀ p ∈ (compareDocxHyperlinks la lb).changedUrl,
      anchorKey p.before = anchorKey p.after ∧
      normalizeUrl p.before.url ≠ normalizeUrl p.after.url ∧
      ('|' ∉ p.before.part.data → '|' ∉ p.after.part.data →
        p.before.part = p.after.part ∧
        normalizeText p.before.anchorText = normalizeText p.after.anchorText) := by
  intro p hp
  have hp' : p ∈ (pass1X la lb).1.2 := by
    rw [compareDocxHyperlinks, compareDocxHyperlinksFull_unfold] at hp
    rwa [compareByPartAndAnchor_eq_X] at hp
  obtain ⟨k, hk⟩ := runPassX_pairs2_decomp anchorKey pass1GroupX la lb hp'
  obtain ⟨hbef, haft, hne⟩ := pass1GroupX_cu_spec _ _ p hk
  have hkey : anchorKey p.before = anchorKey p.after := by
    rw [(mem_grp.mp hbef).2, (mem_grp.mp haft).2]
  refine ⟨hkey, ?_, ?_⟩
  · simpa [urlEq] using hne
  · intro hp1 hp2
    simp only [anchorKey] at hkey
    exact sep_key_inj _ _ _ _ hp1 hp2 hkey

/-- C3 (amended): every `changedAnchorText` entry pairs two records with
equal pass-2 group keys `part ++ "||" ++ normalizedUrl` and with different
normalized labels; whenever the two parts contain no pipe character, equal
keys further force equal parts and equal normalized destinations. -/
theorem changedAnchorText_entries_spec (la lb : List Link) :
    ∀ p ∈ (compareDocxHyperlinks la lb).changedAnchorText,
      urlKey p.before = urlKey p.after ∧
      normalizeText p.before.anchorText ≠ normalizeText p.after.anchorText ∧
      ('|' ∉ p.before.part.data → '|' ∉ p.after.part.data →
        p.before.part = p.after.part ∧
        normalizeUrl p.before.url = normalizeUrl p.after.url) := by
  intro p hp
  have hp' : p ∈ (pass2X (rem1A la lb) (rem1B la lb)).1.2 := by
    rw [compareDocxHyperlinks, compareDocxHyperlinksFull_unfold] at hp
    rwa [compareByPartAndUrl_eq_X] at hp
  obtain ⟨k, hk⟩ := runPassX_pairs2_decomp urlKey pass2GroupX _ _ hp'
  obtain ⟨hbef, haft, hne⟩ := pass2GroupX_cat_spec _ _ p hk
  have hkey : urlKey p.before = urlKey p.after := by
    rw [(mem_grp.mp hbef).2, (mem_grp.mp haft).2]
  refine ⟨hkey, ?_, ?_⟩
  · simpa [textEq] using hne
  · intro hp1 hp2
    simp only [urlKey] at hkey
    exact sep_key_inj _ _ _ _ hp1 hp2 hkey

/-- Witness for C2 (amended) at the Scenario D input. -/
theorem changedUrl_entries_spec_witness :
    anchorKey (⟨⟨1, "p", "rId2", some "y", "L"⟩, ⟨3, "p", "rId2", some "z", "L"⟩⟩ :
        LinkPair).before =
      anchorKey (⟨⟨1, "p", "rId2", some "y", "L"⟩, ⟨3, "p", "rId2", some "z", "L"⟩⟩ :
        LinkPair).after ∧
    normalizeUrl (⟨⟨1, "p", "rId2", some "y", "L"⟩, ⟨3, "p", "rId2", some "z", "L"⟩⟩ :
        LinkPair).before.url ≠
      normalizeUrl (⟨⟨1, "p", "rId2", some "y", "L"⟩, ⟨3, "p", "rId2", some "z", "L"⟩⟩ :
        LinkPair).after.url ∧
    ('|' ∉ (⟨⟨1, "p", "rId2", some "y", "L"⟩, ⟨3, "p", "rId2", some "z", "L"⟩⟩ :
        LinkPair).before.part.data →
      '|' ∉ (⟨⟨1, "p", "rId2", some "y", "L"⟩, ⟨3, "p", "rId2", some "z", "L"⟩⟩ :
        LinkPair).after.part.data →
      (⟨⟨1, "p", "rId2", some "y", "L"⟩, ⟨3, "p", "rId2", some "z", "L"⟩⟩ :
        LinkPair).before.part =
        (⟨⟨1, "p", "rId2", some "y", "L"⟩, ⟨3, "p", "rId2", some "z", "L"⟩⟩ :
          LinkPair).after.part ∧
      normalizeText (⟨⟨1, "p", "rId2", some "y", "L"⟩,
          ⟨3, "p", "rId2", some "z", "L"⟩⟩ : LinkPair).before.anchorText =
        normalizeText (⟨⟨1, "p", "rId2", some "y", "L"⟩,
          ⟨3, "p", "rId2", some "z", "L"⟩⟩ : LinkPair).after.anchorText) :=
  changedUrl_entries_spec
    [⟨0, "p", "rId1", some "x", "L"⟩, ⟨1, "p", "rId2", some "y", "L"⟩]
    [⟨2, "p", "rId1", some "x", "L"⟩, ⟨3, "p", "rId2", some "z", "L"⟩]
    ⟨⟨1, "p", "rId2", some "y", "L"⟩, ⟨3, "p", "rId2", some "z", "L"⟩⟩ (by decide)

/-- Witness for C3 (amended) at a label-rename input. -/
theorem changedAnchorText_entries_spec_witness :
    urlKey (⟨⟨0, "p", "r1", some "u", "old"⟩, ⟨1, "p", "r2", some "u", "new"⟩⟩ :
        LinkPair).before =
      urlKey (⟨⟨0, "p", "r1", some "u", "old"⟩, ⟨1, "p", "r2", some "u", "new"⟩⟩ :
        LinkPair).after ∧
    normalizeText (⟨⟨0, "p", "r1", some "u", "old"⟩,
        ⟨1, "p", "r2", some "u", "new"⟩⟩ : LinkPair).before.anchorText ≠
      normalizeText (⟨⟨0, "p", "r1", some "u", "old"⟩,
        ⟨1, "p", "r2", some "u", "new"⟩⟩ : LinkPair).after.anchorText ∧
    ('|' ∉ (⟨⟨0, "p", "r1", some "u", "old"⟩, ⟨1, "p", "r2", some "u", "new"⟩⟩ :
        LinkPair).before.part.data →
      '|' ∉ (⟨⟨0, "p", "r1", some "u", "old"⟩, ⟨1, "p", "r2", some "u", "new"⟩⟩ :
        LinkPair).after.part.data →
      (⟨⟨0, "p", "r1", some "u", "old"⟩, ⟨1, "p", "r2", some "u", "new"⟩⟩ :
        LinkPair).before.part =
        (⟨⟨0, "p", "r1", some "u", "old"⟩, ⟨1, "p", "r2", some "u", "new"⟩⟩ :
          LinkPair).after.part ∧
      normalizeUrl (⟨⟨0, "p", "r1", some "u", "old"⟩,
          ⟨1, "p", "r2", some "u", "new"⟩⟩ : LinkPair).before.url =
        normalizeUrl (⟨⟨0, "p", "r1", some "u", "old"⟩,
          ⟨1, "p", "r2", some "u", "new"⟩⟩ : LinkPair).after.url) :=
  changedAnchorText_entries_spec
    [⟨0, "p", "r1", some "u", "old"⟩] [⟨1, "p", "r2", some "u", "new"⟩]
    ⟨⟨0, "p", "r1", some "u", "old"⟩, ⟨1, "p", "r2", some "u", "new"⟩⟩ (by decide)

/-! ### Totality of the correlation step (C8)

The only genuinely partial operations in the correlation step are the array
reads/writes at an index produced by `findIndex` (`usedB[matchIndex] = true`,
`arrB[matchIndex]`); absent map keys and null/empty fields are all handled
by explicit defaulting (`|| []`, `normalizeUrl`, `normalizeText`).  The
`E`-suffixed copies below return `Except`, erroring exactly where the
JavaScript would fault on an out-of-range index, and are proven to always
return `ok` with the total correlator's result. -/

/-- Checked list read. -/
def lookupE (l : List (Link × Bool)) (i : Nat) : Except String (Link × Bool) :=
  match l[i]? with
  | some x => .ok x
  | none => .error "arrB index out of range"

/-- Checked `usedB[matchIndex] = true`. -/
def markUsedE (bs : List (Link × Bool)) (i : Nat) : Except String (List (Link × Bool)) :=
  match bs[i]? with
  | some x => .ok (bs.set i (x.1, true))
  | none => .error "usedB index out of range"

/-- The greedy scan with checked indexing after `findIndex`. -/
def matchLoopE (p : Link → Link → Bool) :
    List Link → List (Link × Bool) →
      Except String (List LinkPair × List Link × List (Link × Bool))
  | [], bs => .ok ([], [], bs)
  | a :: as, bs =>
    match List.findIdx? (fun x => !x.2 && p a x.1) bs with
    | some i => do
      let b ← lookupE bs i
      let bs' ← markUsedE bs i
      let r ← matchLoopE p as bs'
      .ok (⟨a, b.1⟩ :: r.1, r.2.1, r.2.2)
    | none => do
      let r ← matchLoopE p as bs
      .ok (r.1, a :: r.2.1, r.2.2)

/-- Pass-1 group body with checked indexing. -/
def pass1GroupE (arrA arrB : List Link) :
    Except String (List LinkPair × List LinkPair) := do
  let r1 ← matchLoopE urlEq arrA (initUsed arrB)
  let r2 ← matchLoopE (fun _ _ => true) r1.2.1 r1.2.2
  .ok (r1.1, r2.1)

/-- Pass-2 group body with checked indexing. -/
def pass2GroupE (arrA arrB : List Link) :
    Except String (List LinkPair × List LinkPair) := do
  let r1 ← matchLoopE textEq arrA (initUsed arrB)
  .ok (r1.1, zipPairs r1.2.1 (unusedOf r1.2.2))

/-- Sequential iteration over the group keys, stopping at the first error. -/
def mapME (g : String → Except String (List LinkPair × List LinkPair)) :
    List String → Except String (List (List LinkPair × List LinkPair))
  | [] => .ok []
  | k :: ks => do
    let x ← g k
    let xs ← mapME g ks
    .ok (x :: xs)

/-- Grouped pass with checked group bodies. -/
def runPassE (f : Link → String)
    (stepE : List Link → List Link → Except String (List LinkPair × List LinkPair))
    (la lb : List Link) : Except String (List LinkPair × List LinkPair) := do
  let results ← mapME (fun k => stepE (grp f k la) (grp f k lb)) (allKeys f la lb)
  .ok ((results.map Prod.fst).flatten, (results.map Prod.snd).flatten)

/-- The correlation step with checked indexing throughout. -/
def compareDocxHyperlinksE (la lb : List Link) : Except String CompareResult := do
  let p1 ← runPassE anchorKey pass1GroupE la lb
  let accA1 := p1.1.map LinkPair.before ++ p1.2.map LinkPair.before
  let accB1 := p1.1.map LinkPair.after ++ p1.2.map LinkPair.after
  let remA := la.filter (fun l => decide (l ∉ accA1))
  let remB := lb.filter (fun l => decide (l ∉ accB1))
  let p2 ← runPassE urlKey pass2GroupE remA remB
  let accA := accA1 ++ p2.1.map LinkPair.before ++ p2.2.map LinkPair.before
  let accB := accB1 ++ p2.1.map LinkPair.after ++ p2.2.map LinkPair.after
  .ok { added := lb.filter (fun l => decide (l ∉ accB)),
        removed := la.filter (fun l => decide (l ∉ accA)),
        changedUrl := p1.2,
        changedAnchorText := p2.2 }


theorem markFirst_findIdx (p : Link → Bool) :
    ∀ bs : List (Link × Bool),
      (∀ i, List.findIdx? (fun x => !x.2 && p x.1) bs = some i →
        ∃ x, bs[i]? = some x ∧ markFirst p bs = some (x.1, bs.set i (x.1, true))) ∧
      (List.findIdx? (fun x => !x.2 && p x.1) bs = none → markFirst p bs = none) := by
  intro bs
  induction bs with
  | nil => exact ⟨fun i h => by simp [List.findIdx?] at h, fun _ => rfl⟩
  | cons hd rest ih =>
    obtain ⟨c, u⟩ := hd
    have hcons : List.findIdx? (fun x : Link × Bool => !x.2 && p x.1) ((c, u) :: rest) =
        if (!u && p c) then some 0
        else (List.findIdx? (fun x => !x.2 && p x.1) rest).map (· + 1) := by
      simp [List.findIdx?_cons]
    constructor
    · intro i hi
      rw [hcons] at hi
      by_cases hc : (!u && p c) = true
      · rw [if_pos hc] at hi
        obtain ⟨h1, h2⟩ := Bool.and_eq_true_iff.mp hc
        have hu : u = false := by simpa using h1
        subst hu
        obtain rfl : (0 : Nat) = i := by simpa using hi
        refine ⟨(c, false), by simp, ?_⟩
        rw [markFirst_cons, if_pos (by simpa using h2)]
        rfl
      · rw [if_neg hc] at hi
        obtain ⟨j, hj, rfl⟩ := Option.map_eq_some'.mp hi
        obtain ⟨x, hget, hmf⟩ := ih.1 j hj
        refine ⟨x, by simpa [List.getElem?_cons_succ] using hget, ?_⟩
        rw [markFirst_cons, if_neg (by simpa using hc), hmf]
        rfl
    · intro hn
      rw [hcons] at hn
      by_cases hc : (!u && p c) = true
      · rw [if_pos hc] at hn
        simp at hn
      · rw [if_neg hc] at hn
        have hr : List.findIdx? (fun x => !x.2 && p x.1) rest = none := by
          cases h : List.findIdx? (fun x => !x.2 && p x.1) rest with
          | none => rfl
          | some j => rw [h] at hn; simp at hn
        rw [markFirst_cons, if_neg (by simpa using hc), ih.2 hr]
        rfl

theorem matchLoopE_eq (p : Link → Link → Bool) :
    ∀ as bs, matchLoopE p as bs = .ok (matchLoop p as bs) := by
  intro as
  induction as with
  | nil => intro bs; rfl
  | cons a as ih =>
    intro bs
    cases hfi : List.findIdx? (fun x => !x.2 && p a x.1) bs with
    | some i =>
      obtain ⟨x, hget, hmf⟩ := (markFirst_findIdx (p a) bs).1 i hfi
      simp only [matchLoopE, hfi, lookupE, markUsedE, hget]
      simp only [ih]
      simp only [matchLoop, hmf]
      rfl
    | none =>
      have hmf := (markFirst_findIdx (p a) bs).2 hfi
      simp only [matchLoopE, hfi]
      simp only [ih]
      simp only [matchLoop, hmf]
      rfl

theorem pass1GroupE_eq (arrA arrB : List Link) :
    pass1GroupE arrA arrB = .ok (pass1Group arrA arrB) := by
  rw [pass1GroupE]
  simp only [matchLoopE_eq]
  rfl

theorem pass2GroupE_eq (arrA arrB : List Link) :
    pass2GroupE arrA arrB = .ok (pass2Group arrA arrB) := by
  rw [pass2GroupE]
  simp only [matchLoopE_eq]
  rfl

theorem mapME_ok (g : String → Except String (List LinkPair × List LinkPair))
    (g' : String → List LinkPair × List LinkPair)
    (h : ∀ k, g k = .ok (g' k)) :
    ∀ K : List String, mapME g K = .ok (K.map g') := by
  intro K
  induction K with
  | nil => rfl
  | cons k K ih =>
    rw [mapME, h k]
    simp only [ih]
    rfl

theorem runPassE_eq (f : Link → String)
    (stepE : List Link → List Link → Except String (List LinkPair × List LinkPair))
    (step : List Link → List Link → List LinkPair × List LinkPair)
    (h : ∀ x y, stepE x y = .ok (step x y)) (la lb : List Link) :
    runPassE f stepE la lb = .ok (runPass f step la lb) := by
  rw [runPassE, mapME_ok _ (fun k => step (grp f k la) (grp f k lb))
    (fun k => h _ _) (allKeys f la lb)]
  show Except.ok _ = _
  rw [runPass]
  simp only [List.map_map]
  rfl

/-- C8: totality of the correlation step.  The checked version of the
correlator, which errors exactly where the JavaScript would fault on an
out-of-range index after `findIndex`, always succeeds and returns the total
correlator's result: null destinations and empty labels are absorbed by the
normalization rules and never cause an error. -/
theorem correlator_total (la lb : List Link) :
    compareDocxHyperlinksE la lb = .ok (compareDocxHyperlinks la lb) := by
  rw [compareDocxHyperlinksE]
  simp only [runPassE_eq anchorKey pass1GroupE pass1Group pass1GroupE_eq,
    runPassE_eq urlKey pass2GroupE pass2Group pass2GroupE_eq]
  rfl

/-! ### Symmetry (C5)

For projection-equality predicates the greedy scan is classwise
order-aligned, so swapping the two inputs swaps every pairing exactly
within each group; different group iteration order makes the global
`changedUrl`/`changedAnchorText` lists permutations of the swapped
originals, and the added/removed buckets swap exactly. -/

/-- The projection compared by pass 1's first scan. -/
def urlProj (l : Link) : String := normalizeUrl l.url

/-- The projection compared by pass 2's first scan. -/
def textProj (l : Link) : String := normalizeText l.anchorText

theorem urlEq_proj : urlEq = projEq urlProj := rfl

theorem textEq_proj : textEq = projEq textProj := rfl

theorem zipPairs_swap : ∀ xs ys : List Link,
    zipPairs ys xs = (zipPairs xs ys).map LinkPair.swap := by
  intro xs
  induction xs with
  | nil => intro ys; cases ys <;> rfl
  | cons x xs ih =>
    intro ys
    cases ys with
    | nil => rfl
    | cons y ys => simp [ih ys, LinkPair.swap]

theorem pass1GroupX_cu_eq (arrA arrB : List Link) :
    (pass1GroupX arrA arrB).1.2 =
      zipPairs (dropClasswise urlProj (classBudget urlProj arrB) arrA)
        (dropClasswise urlProj (classBudget urlProj arrA) arrB) := by
  have h1 : (pass1GroupX arrA arrB).1.2 =
      zipPairs (matchLoop urlEq arrA (initUsed arrB)).2.1
        (unusedOf (matchLoop urlEq arrA (initUsed arrB)).2.2) :=
    (matchLoop_true_eq _ _).1
  rw [h1, urlEq_proj, matchLoop_unmatched_eq, matchLoop_unused_eq, unusedOf_initUsed]

theorem pass2GroupX_cat_eq (arrA arrB : List Link) :
    (pass2GroupX arrA arrB).1.2 =
      zipPairs (dropClasswise textProj (classBudget textProj arrB) arrA)
        (dropClasswise textProj (classBudget textProj arrA) arrB) := by
  show zipPairs (matchLoop textEq arrA (initUsed arrB)).2.1
      (unusedOf (matchLoop textEq arrA (initUsed arrB)).2.2) = _
  rw [textEq_proj, matchLoop_unmatched_eq, matchLoop_unused_eq, unusedOf_initUsed]

theorem pass1GroupX_cu_swap (arrA arrB : List Link) :
    (pass1GroupX arrB arrA).1.2 = ((pass1GroupX arrA arrB).1.2).map LinkPair.swap := by
  rw [pass1GroupX_cu_eq, pass1GroupX_cu_eq, zipPairs_swap]

theorem pass2GroupX_cat_swap (arrA arrB : List Link) :
    (pass2GroupX arrA arrB).1.2 = ((pass2GroupX arrB arrA).1.2).map LinkPair.swap := by
  rw [pass2GroupX_cat_eq, pass2GroupX_cat_eq, zipPairs_swap]

theorem map_sum_multiset (sw : LinkPair → LinkPair) (K : List String)
    (m : String → Multiset LinkPair) :
    (K.map (fun k => (m k).map sw)).sum = ((K.map m).sum).map sw := by
  induction K with
  | nil => rfl
  | cons k K ih => simp [Multiset.map_add, ih]

/-- The matched pairs of one group, as a multiset, swap when the group's two
sides swap. -/
theorem matchLoop_pairs_swap (f : Link → String) (arrA arrB : List Link) :
    ((matchLoop (projEq f) arrB (initUsed arrA)).1 : Multiset LinkPair) =
      Multiset.map LinkPair.swap
        ((matchLoop (projEq f) arrA (initUsed arrB)).1 : Multiset LinkPair) := by
  classical
  set V : Finset String :=
    (arrA.map f).toFinset ∪ (arrB.map f).toFinset with hV
  have hVA : ∀ a ∈ arrA, f a ∈ V := by
    intro a ha
    simp [hV, List.mem_map]
    exact Or.inl ⟨a, ha, rfl⟩
  have hVB : ∀ b ∈ arrB, f b ∈ V := by
    intro b hb
    simp [hV, List.mem_map]
    exact Or.inr ⟨b, hb, rfl⟩
  rw [matchLoop_pairs_classwise f arrB (initUsed arrA) V hVB,
    matchLoop_pairs_classwise f arrA (initUsed arrB) V hVA,
    unusedOf_initUsed, unusedOf_initUsed]
  have hterm : ∀ v ∈ V, ((zipPairs (arrB.filter (fun x => decide (f x = v)))
      (arrA.filter (fun x => decide (f x = v)))) : Multiset LinkPair) =
      Multiset.map LinkPair.swap
        ((zipPairs (arrA.filter (fun x => decide (f x = v)))
          (arrB.filter (fun x => decide (f x = v)))) : Multiset LinkPair) := by
    intro v _
    rw [zipPairs_swap, Multiset.map_coe]
  rw [Finset.sum_congr rfl hterm]
  have hmap := (map_sum (Multiset.mapAddMonoidHom LinkPair.swap)
    (fun v => ((zipPairs (arrA.filter (fun x => decide (f x = v)))
      (arrB.filter (fun x => decide (f x = v)))) : Multiset LinkPair)) V).symm
  simpa only [← Multiset.coe_mapAddMonoidHom] using hmap

theorem pass1GroupX_m_swap (arrA arrB : List Link) :
    (((pass1GroupX arrB arrA).1.1 : List LinkPair) : Multiset LinkPair) =
      Multiset.map LinkPair.swap
        (((pass1GroupX arrA arrB).1.1 : List LinkPair) : Multiset LinkPair) := by
  show ((matchLoop urlEq arrB (initUsed arrA)).1 : Multiset LinkPair) =
    Multiset.map LinkPair.swap ((matchLoop urlEq arrA (initUsed arrB)).1 : Multiset LinkPair)
  rw [urlEq_proj]
  exact matchLoop_pairs_swap urlProj arrA arrB

theorem pass2GroupX_m_swap (arrA arrB : List Link) :
    (((pass2GroupX arrB arrA).1.1 : List LinkPair) : Multiset LinkPair) =
      Multiset.map LinkPair.swap
        (((pass2GroupX arrA arrB).1.1 : List LinkPair) : Multiset LinkPair) := by
  show ((matchLoop textEq arrB (initUsed arrA)).1 : Multiset LinkPair) =
    Multiset.map LinkPair.swap ((matchLoop textEq arrA (initUsed arrB)).1 : Multiset LinkPair)
  rw [textEq_proj]
  exact matchLoop_pairs_swap textProj arrA arrB

theorem allKeys_swap_perm (f : Link → String) (la lb : List Link) :
    (allKeys f lb la).Perm (allKeys f la lb) := by
  refine (List.perm_ext_iff_of_nodup (allKeys_nodup f lb la) (allKeys_nodup f la lb)).mpr ?_
  intro k
  rw [mem_allKeys, mem_allKeys]
  simp only [List.mem_append]
  tauto

theorem runPassX_cu_swap (f : Link → String)
    (stepX : List Link → List Link →
      (List LinkPair × List LinkPair) × (List Link × List Link))
    (la lb : List Link)
    (hsw : ∀ x y, (stepX y x).1.2 = ((stepX x y).1.2).map LinkPair.swap) :
    ((runPassX f stepX lb la).1.2).Perm
      (((runPassX f stepX la lb).1.2).map LinkPair.swap) := by
  show (((allKeys f lb la).map
      (fun k => (stepX (grp f k lb) (grp f k la)).1.2)).flatten).Perm
    ((((allKeys f la lb).map
      (fun k => (stepX (grp f k la) (grp f k lb)).1.2)).flatten).map LinkPair.swap)
  rw [List.map_congr_left
    (fun k (_ : k ∈ allKeys f lb la) => hsw (grp f k la) (grp f k lb))]
  rw [show (allKeys f lb la).map
        (fun k => ((stepX (grp f k la) (grp f k lb)).1.2).map LinkPair.swap) =
      ((allKeys f lb la).map
        (fun k => (stepX (grp f k la) (grp f k lb)).1.2)).map
          (List.map LinkPair.swap) from (List.map_map _ _ _).symm]
  rw [← List.map_flatten]
  exact (((allKeys_swap_perm f la lb).map _).flatten).map _

theorem runPassX_m_swap (f : Link → String)
    (stepX : List Link → List Link →
      (List LinkPair × List LinkPair) × (List Link × List Link))
    (la lb : List Link)
    (hsw : ∀ x y, (((stepX y x).1.1 : List LinkPair) : Multiset LinkPair) =
      Multiset.map LinkPair.swap (((stepX x y).1.1 : List LinkPair) : Multiset LinkPair)) :
    (((runPassX f stepX lb la).1.1 : List LinkPair) : Multiset LinkPair) =
      Multiset.map LinkPair.swap
        (((runPassX f stepX la lb).1.1 : List LinkPair) : Multiset LinkPair) := by
  show (((((allKeys f lb la).map
      (fun k => (stepX (grp f k lb) (grp f k la)).1.1)).flatten : List LinkPair)) :
        Multiset LinkPair) =
    Multiset.map LinkPair.swap
      (((((allKeys f la lb).map
        (fun k => (stepX (grp f k la) (grp f k lb)).1.1)).flatten : List LinkPair)) :
          Multiset LinkPair)
  rw [coe_flatten, coe_flatten, List.map_map, List.map_map]
  have hc : (allKeys f lb la).map
      (Multiset.ofList ∘ fun k => (stepX (grp f k lb) (grp f k la)).1.1) =
      (allKeys f lb la).map (fun k => Multiset.map LinkPair.swap
        (((stepX (grp f k la) (grp f k lb)).1.1 : List LinkPair) : Multiset LinkPair)) :=
    List.map_congr_left (fun k _ => hsw (grp f k la) (grp f k lb))
  rw [hc]
  rw [map_sum_multiset LinkPair.swap (allKeys f lb la)
    (fun k => (((stepX (grp f k la) (grp f k lb)).1.1 : List LinkPair) : Multiset LinkPair))]
  congr 1
  refine List.Perm.sum_eq ?_
  have := (allKeys_swap_perm f la lb).map
    (Multiset.ofList ∘ fun k => (stepX (grp f k la) (grp f k lb)).1.1)
  exact this

theorem before_comp_swap : LinkPair.before ∘ LinkPair.swap = LinkPair.after := rfl

theorem after_comp_swap : LinkPair.after ∘ LinkPair.swap = LinkPair.before := rfl

theorem cbpa_m_swap (la lb : List Link) :
    (((compareByPartAndAnchor lb la).1 : List LinkPair) : Multiset LinkPair) =
      Multiset.map LinkPair.swap
        (((compareByPartAndAnchor la lb).1 : List LinkPair) : Multiset LinkPair) := by
  rw [compareByPartAndAnchor_eq_X, compareByPartAndAnchor_eq_X]
  exact runPassX_m_swap anchorKey pass1GroupX la lb pass1GroupX_m_swap

theorem cbpa_cu_swap (la lb : List Link) :
    ((compareByPartAndAnchor lb la).2).Perm
      (((compareByPartAndAnchor la lb).2).map LinkPair.swap) := by
  rw [compareByPartAndAnchor_eq_X, compareByPartAndAnchor_eq_X]
  exact runPassX_cu_swap anchorKey pass1GroupX la lb pass1GroupX_cu_swap

theorem cbpu_m_swap (la lb : List Link) :
    (((compareByPartAndUrl lb la).1 : List LinkPair) : Multiset LinkPair) =
      Multiset.map LinkPair.swap
        (((compareByPartAndUrl la lb).1 : List LinkPair) : Multiset LinkPair) := by
  rw [compareByPartAndUrl_eq_X, compareByPartAndUrl_eq_X]
  exact runPassX_m_swap urlKey pass2GroupX la lb pass2GroupX_m_swap

theorem cbpu_cat_swap (la lb : List Link) :
    ((compareByPartAndUrl lb la).2).Perm
      (((compareByPartAndUrl la lb).2).map LinkPair.swap) := by
  rw [compareByPartAndUrl_eq_X, compareByPartAndUrl_eq_X]
  refine runPassX_cu_swap urlKey pass2GroupX la lb ?_
  intro x y
  exact pass2GroupX_cat_swap y x

theorem map_perm_of_multiset_swap {l1 l2 : List LinkPair}
    (h : ((l1 : List LinkPair) : Multiset LinkPair) =
      Multiset.map LinkPair.swap ((l2 : List LinkPair) : Multiset LinkPair))
    (g g' : LinkPair → Link) (hg : g ∘ LinkPair.swap = g') :
    (l1.map g).Perm (l2.map g') := by
  rw [← Multiset.coe_eq_coe, ← Multiset.map_coe, ← Multiset.map_coe, h,
    Multiset.map_map, hg]

theorem acc1Before_swap (la lb : List Link) :
    (acc1Before lb la).Perm (acc1After la lb) := by
  rw [acc1Before, acc1After]
  refine List.Perm.append ?_ ?_
  · exact map_perm_of_multiset_swap (cbpa_m_swap la lb) _ _ before_comp_swap
  · have h := (cbpa_cu_swap la lb).map LinkPair.before
    rw [List.map_map, before_comp_swap] at h
    exact h

theorem acc1After_swap (la lb : List Link) :
    (acc1After lb la).Perm (acc1Before la lb) := by
  rw [acc1Before, acc1After]
  refine List.Perm.append ?_ ?_
  · exact map_perm_of_multiset_swap (cbpa_m_swap la lb) _ _ after_comp_swap
  · have h := (cbpa_cu_swap la lb).map LinkPair.after
    rw [List.map_map, after_comp_swap] at h
    exact h

theorem rem1A_swap (la lb : List Link) : rem1A lb la = rem1B la lb := by
  rw [rem1A, rem1B]
  refine List.filter_congr ?_
  intro x _
  rw [decide_eq_decide]
  exact not_congr (acc1Before_swap la lb).mem_iff

theorem rem1B_swap (la lb : List Link) : rem1B lb la = rem1A la lb := by
  rw [rem1A, rem1B]
  refine List.filter_congr ?_
  intro x _
  rw [decide_eq_decide]
  exact not_congr (acc1After_swap la lb).mem_iff

theorem accAfter_swap (la lb : List Link) :
    (accAfter lb la).Perm (accBefore la lb) := by
  rw [accAfter, accBefore, rem1A_swap la lb, rem1B_swap la lb]
  refine List.Perm.append (List.Perm.append ?_ ?_) ?_
  · exact acc1After_swap la lb
  · exact map_perm_of_multiset_swap (cbpu_m_swap (rem1A la lb) (rem1B la lb)) _ _
      after_comp_swap
  · have h := (cbpu_cat_swap (rem1A la lb) (rem1B la lb)).map LinkPair.after
    rw [List.map_map, after_comp_swap] at h
    exact h

theorem accBefore_swap (la lb : List Link) :
    (accBefore lb la).Perm (accAfter la lb) := by
  rw [accAfter, accBefore, rem1A_swap la lb, rem1B_swap la lb]
  refine List.Perm.append (List.Perm.append ?_ ?_) ?_
  · exact acc1Before_swap la lb
  · exact map_perm_of_multiset_swap (cbpu_m_swap (rem1A la lb) (rem1B la lb)) _ _
      before_comp_swap
  · have h := (cbpu_cat_swap (rem1A la lb) (rem1B la lb)).map LinkPair.before
    rw [List.map_map, before_comp_swap] at h
    exact h

/-- C5: symmetry.  Swapping the two inputs swaps `added` with `removed`
exactly, and turns each changed bucket into a permutation of the original
bucket with every pair's before/after fields swapped (the permutation slack
reflects the different group iteration order). -/
theorem compareDocxHyperlinks_symm (la lb : List Link) :
    (compareDocxHyperlinks lb la).added = (compareDocxHyperlinks la lb).removed ∧
    (compareDocxHyperlinks lb la).removed = (compareDocxHyperlinks la lb).added ∧
    ((compareDocxHyperlinks lb la).changedUrl).Perm
      (((compareDocxHyperlinks la lb).changedUrl).map LinkPair.swap) ∧
    ((compareDocxHyperlinks lb la).changedAnchorText).Perm
      (((compareDocxHyperlinks la lb).changedAnchorText).map LinkPair.swap) := by
  refine ⟨?_, ?_, ?_, ?_⟩
  · rw [compareDocxHyperlinks, compareDocxHyperlinksFull_unfold,
      compareDocxHyperlinks, compareDocxHyperlinksFull_unfold]
    refine List.filter_congr ?_
    intro x _
    rw [decide_eq_decide]
    exact not_congr (accAfter_swap la lb).mem_iff
  · rw [compareDocxHyperlinks, compareDocxHyperlinksFull_unfold,
      compareDocxHyperlinks, compareDocxHyperlinksFull_unfold]
    refine List.filter_congr ?_
    intro x _
    rw [decide_eq_decide]
    exact not_congr (accBefore_swap la lb).mem_iff
  · rw [compareDocxHyperlinks, compareDocxHyperlinksFull_unfold,
      compareDocxHyperlinks, compareDocxHyperlinksFull_unfold]
    exact cbpa_cu_swap la lb
  · rw [compareDocxHyperlinks, compareDocxHyperlinksFull_unfold,
      compareDocxHyperlinks, compareDocxHyperlinksFull_unfold]
    rw [rem1A_swap la lb, rem1B_swap la lb]
    exact cbpu_cat_swap (rem1A la lb) (rem1B la lb)

/-! ### The pass-2 label loop is dead for pipe-free parts (C6) -/

theorem pass1GroupX_leftover_excl (arrA arrB : List Link) :
    (pass1GroupX arrA arrB).2.1 = [] ∨ (pass1GroupX arrA arrB).2.2 = [] := by
  have h1 : (pass1GroupX arrA arrB).2.1 =
      (matchLoop urlEq arrA (initUsed arrB)).2.1.drop
        (unusedOf (matchLoop urlEq arrA (initUsed arrB)).2.2).length :=
    (matchLoop_true_eq _ _).2.1
  have h2 : (pass1GroupX arrA arrB).2.2 =
      (unusedOf (matchLoop urlEq arrA (initUsed arrB)).2.2).drop
        (matchLoop urlEq arrA (initUsed arrB)).2.1.length :=
    (matchLoop_true_eq _ _).2.2
  by_cases hle : (matchLoop urlEq arrA (initUsed arrB)).2.1.length ≤
      (unusedOf (matchLoop urlEq arrA (initUsed arrB)).2.2).length
  · exact Or.inl (by rw [h1]; exact List.drop_eq_nil_of_le hle)
  · exact Or.inr (by rw [h2]; exact List.drop_eq_nil_of_le (by omega))

theorem runPassX_left_decomp (f : Link → String)
    (stepX : List Link → List Link →
      (List LinkPair × List LinkPair) × (List Link × List Link))
    (la lb : List Link) {x : Link} (hx : x ∈ (runPassX f stepX la lb).2.1) :
    ∃ k, x ∈ (stepX (grp f k la) (grp f k lb)).2.1 := by
  unfold runPassX at hx
  simp only at hx
  obtain ⟨l, hl, hxl⟩ := List.mem_flatten.mp hx
  obtain ⟨k, -, rfl⟩ := List.mem_map.mp hl
  exact ⟨k, hxl⟩

theorem runPassX_right_decomp (f : Link → String)
    (stepX : List Link → List Link →
      (List LinkPair × List LinkPair) × (List Link × List Link))
    (la lb : List Link) {x : Link} (hx : x ∈ (runPassX f stepX la lb).2.2) :
    ∃ k, x ∈ (stepX (grp f k la) (grp f k lb)).2.2 := by
  unfold runPassX at hx
  simp only at hx
  obtain ⟨l, hl, hxl⟩ := List.mem_flatten.mp hx
  obtain ⟨k, -, rfl⟩ := List.mem_map.mp hl
  exact ⟨k, hxl⟩

theorem pass1GroupX_left_subset (arrA arrB : List Link) :
    ∀ x ∈ (pass1GroupX arrA arrB).2.1, x ∈ arrA := by
  intro x hx
  have h1 : (pass1GroupX arrA arrB).2.1 =
      (matchLoop urlEq arrA (initUsed arrB)).2.1.drop
        (unusedOf (matchLoop urlEq arrA (initUsed arrB)).2.2).length :=
    (matchLoop_true_eq _ _).2.1
  rw [h1] at hx
  exact matchLoop_us_subset urlEq arrA _ x (List.drop_subset _ _ hx)

theorem pass1GroupX_right_subset (arrA arrB : List Link) :
    ∀ x ∈ (pass1GroupX arrA arrB).2.2, x ∈ arrB := by
  intro x hx
  have h2 : (pass1GroupX arrA arrB).2.2 =
      unusedOf (matchLoop (fun _ _ => true)
        (matchLoop urlEq arrA (initUsed arrB)).2.1
        (matchLoop urlEq arrA (initUsed arrB)).2.2).2.2 := rfl
  rw [h2] at hx
  have hs1 := matchLoop_unused_sublist (fun _ _ => true)
    (matchLoop urlEq arrA (initUsed arrB)).2.1
    (matchLoop urlEq arrA (initUsed arrB)).2.2
  have hs2 := matchLoop_unused_sublist urlEq arrA (initUsed arrB)
  have := hs1.mem hx
  have := hs2.mem this
  rwa [unusedOf_initUsed] at this

/-- After pass 1, no residual before-record shares its pass-1 group key with
a residual after-record: within each group, the positional `changedUrl`
pairing exhausts at least one side. -/
theorem no_shared_anchorKey_residue (la lb : List Link) :
    ∀ a ∈ rem1A la lb, ∀ b ∈ rem1B la lb, anchorKey a ≠ anchorKey b := by
  intro a ha b hb heq
  have haL : a ∈ (pass1X la lb).2.1 := by
    obtain ⟨hala, hana⟩ := List.mem_filter.mp ha
    have := acc1Before_residual_perm la lb
    rcases List.mem_append.mp (this.symm.subset hala) with h | h
    · exact absurd h (by simpa using hana)
    · exact h
  have hbL : b ∈ (pass1X la lb).2.2 := by
    obtain ⟨hblb, hbna⟩ := List.mem_filter.mp hb
    have := acc1After_residual_perm la lb
    rcases List.mem_append.mp (this.symm.subset hblb) with h | h
    · exact absurd h (by simpa using hbna)
    · exact h
  obtain ⟨k1, hk1⟩ := runPassX_left_decomp anchorKey pass1GroupX la lb haL
  obtain ⟨k2, hk2⟩ := runPassX_right_decomp anchorKey pass1GroupX la lb hbL
  have hak : anchorKey a = k1 :=
    (mem_grp.mp (pass1GroupX_left_subset _ _ a hk1)).2
  have hbk : anchorKey b = k2 :=
    (mem_grp.mp (pass1GroupX_right_subset _ _ b hk2)).2
  have hkk : k1 = k2 := by rw [← hak, ← hbk, heq]
  subst hkk
  rcases pass1GroupX_leftover_excl (grp anchorKey k1 la) (grp anchorKey k1 lb) with
    h | h
  · rw [h] at hk1
    exact absurd hk1 (List.not_mem_nil a)
  · rw [h] at hk2
    exact absurd hk2 (List.not_mem_nil b)

theorem pass2Group_eq_noResidual (arrA arrB : List Link)
    (hdead : ∀ a ∈ arrA, ∀ b ∈ arrB, textEq a b = false) :
    pass2Group arrA arrB = pass2GroupNoResidual arrA arrB := by
  have h := matchLoop_dead textEq arrA (initUsed arrB)
    (by rw [unusedOf_initUsed]; exact hdead)
  show ((matchLoop textEq arrA (initUsed arrB)).1,
      zipPairs (matchLoop textEq arrA (initUsed arrB)).2.1
        (unusedOf (matchLoop textEq arrA (initUsed arrB)).2.2)) =
    pass2GroupNoResidual arrA arrB
  rw [h, pass2GroupNoResidual]
  simp

theorem compareByPartAndUrl_eq_noResidual (a b : List Link)
    (hdead : ∀ k, ∀ x ∈ grp urlKey k a, ∀ y ∈ grp urlKey k b, textEq x y = false) :
    compareByPartAndUrl a b = compareByPartAndUrlNoResidual a b := by
  rw [compareByPartAndUrl, compareByPartAndUrlNoResidual, runPass, runPass]
  have hgroups : ∀ k, pass2Group (grp urlKey k a) (grp urlKey k b) =
      pass2GroupNoResidual (grp urlKey k a) (grp urlKey k b) :=
    fun k => pass2Group_eq_noResidual _ _ (hdead k)
  refine Prod.ext ?_ ?_
  · exact congrArg List.flatten (List.map_congr_left (fun k _ => by rw [hgroups k]))
  · exact congrArg List.flatten (List.map_congr_left (fun k _ => by rw [hgroups k]))

theorem compareDocxHyperlinksNoResidualFull_unfold (la lb : List Link) :
    compareDocxHyperlinksNoResidualFull la lb =
      ({ added := lb.filter (fun l => decide (l ∉
           (acc1After la lb ++
             (compareByPartAndUrlNoResidual (rem1A la lb) (rem1B la lb)).1.map
               LinkPair.after ++
             (compareByPartAndUrlNoResidual (rem1A la lb) (rem1B la lb)).2.map
               LinkPair.after))),
         removed := la.filter (fun l => decide (l ∉
           (acc1Before la lb ++
             (compareByPartAndUrlNoResidual (rem1A la lb) (rem1B la lb)).1.map
               LinkPair.before ++
             (compareByPartAndUrlNoResidual (rem1A la lb) (rem1B la lb)).2.map
               LinkPair.before))),
         changedUrl := (compareByPartAndAnchor la lb).2,
         changedAnchorText :=
           (compareByPartAndUrlNoResidual (rem1A la lb) (rem1B la lb)).2 },
       (compareByPartAndAnchor la lb).1 ++
         (compareByPartAndUrlNoResidual (rem1A la lb) (rem1B la lb)).1) := rfl

/-- C6 (amended): when no record's part contains the pipe character — true
of the real part names — the pass-2 label-equality residual sub-step is
dead: it consumes no records, and the correlator coincides with the
spec-simplified variant whose Pass 2 is positional pairing only.  (With a
part containing `"||"`, `pass2_residual_loop_live_cex` shows the sub-step
can fire, so the restriction is necessary.) -/
theorem pass2_residual_dead (la lb : List Link)
    (hp : ∀ l ∈ la ++ lb, '|' ∉ l.part.data) :
    (compareByPartAndUrl (rem1A la lb) (rem1B la lb)).1 = [] ∧
    compareDocxHyperlinksFull la lb = compareDocxHyperlinksNoResidualFull la lb := by
  have hdead : ∀ k, ∀ x ∈ grp urlKey k (rem1A la lb),
      ∀ y ∈ grp urlKey k (rem1B la lb), textEq x y = false := by
    intro k x hx y hy
    obtain ⟨hxrem, hxk⟩ := mem_grp.mp hx
    obtain ⟨hyrem, hyk⟩ := mem_grp.mp hy
    by_contra hne
    have htext : normalizeText x.anchorText = normalizeText y.anchorText := by
      have h1 : textEq x y = true := by
        cases h : textEq x y with
        | false => exact absurd h hne
        | true => rfl
      simpa [textEq] using h1
    have hxla : x ∈ la := List.mem_of_mem_filter hxrem
    have hylb : y ∈ lb := List.mem_of_mem_filter hyrem
    have hpx := hp x (List.mem_append_left _ hxla)
    have hpy := hp y (List.mem_append_right _ hylb)
    have hkey : urlKey x = urlKey y := by rw [hxk, hyk]
    simp only [urlKey] at hkey
    have hparts := (sep_key_inj _ _ _ _ hpx hpy hkey).1
    have hanchor : anchorKey x = anchorKey y := by
      rw [anchorKey, anchorKey, hparts, htext]
    exact no_shared_anchorKey_residue la lb x hxrem y hyrem hanchor
  have hcbpu := compareByPartAndUrl_eq_noResidual _ _ hdead
  constructor
  · rw [hcbpu, compareByPartAndUrlNoResidual, runPass]
    exact flatten_map_nil _ _ (fun k => rfl)
  · rw [compareDocxHyperlinksFull_unfold, compareDocxHyperlinksNoResidualFull_unfold,
      accBefore, accAfter, hcbpu]

/-- Witness for C6 (amended) at the Scenario D input, whose parts are
pipe-free. -/
theorem pass2_residual_dead_witness :
    (compareByPartAndUrl
      (rem1A [⟨0, "p", "rId1", some "x", "L"⟩, ⟨1, "p", "rId2", some "y", "L"⟩]
        [⟨2, "p", "rId1", some "x", "L"⟩, ⟨3, "p", "rId2", some "z", "L"⟩])
      (rem1B [⟨0, "p", "rId1", some "x", "L"⟩, ⟨1, "p", "rId2", some "y", "L"⟩]
        [⟨2, "p", "rId1", some "x", "L"⟩, ⟨3, "p", "rId2", some "z", "L"⟩])).1 = [] ∧
    compareDocxHyperlinksFull
        [⟨0, "p", "rId1", some "x", "L"⟩, ⟨1, "p", "rId2", some "y", "L"⟩]
        [⟨2, "p", "rId1", some "x", "L"⟩, ⟨3, "p", "rId2", some "z", "L"⟩] =
      compareDocxHyperlinksNoResidualFull
        [⟨0, "p", "rId1", some "x", "L"⟩, ⟨1, "p", "rId2", some "y", "L"⟩]
        [⟨2, "p", "rId1", some "x", "L"⟩, ⟨3, "p", "rId2", some "z", "L"⟩] :=
  pass2_residual_dead
    [⟨0, "p", "rId1", some "x", "L"⟩, ⟨1, "p", "rId2", some "y", "L"⟩]
    [⟨2, "p", "rId1", some "x", "L"⟩, ⟨3, "p", "rId2", some "z", "L"⟩]
    (by decide)
